import Mathlib

/-!
Verification of the wunderbaum tree-widget core: the node tree, the
row-traversal engine (`visitRows` / `_visitRowsUp`), the viewport
renumbering pass (`Wunderbaum.renumber`), and the filter extension
(`FilterExtension._applyFilterImpl`, `clearFilter`, `filterNodes`,
`_markFuzzyMatchedChars`).

The embedding follows the JavaScript sources:
  * `src/unnamed/part_000`   — `WunderbaumNode`, `Wunderbaum` (traversal,
    renumber, visit, visitParents);
  * `src/src/wb_ext_filter.ts` — the filter extension.

JavaScript objects become a rose tree of per-node records; deletable JS
properties (`node.match`, `node.subMatchCount`, `node.titleWithHighlight`)
become `Option` fields (`none` = property absent / `undefined`).
-/

set_option linter.unusedVariables false

namespace Wunderbaum

/-- The result values a filter callback may return in
`_applyFilterImpl` (JS: `true`, `false`, `"skip"`, `"branch"`).
JS truthiness: `found` and `branch` are truthy, `notFound` is falsy. -/
inductive FR where
  | found
  | notFound
  | skip
  | branch
deriving DecidableEq, Repr

/-- JS truthiness of a filter-callback result (`"skip"` is handled before
any truthiness test in `_applyFilterImpl`, so it never reaches one). -/
def FR.truthy : FR → Bool
  | .found => true
  | .branch => true
  | _ => false

/-- Per-node state (`WunderbaumNode` fields used by the claims).

* `title`        — `node.title` (raw string).
* `expanded`     — `node.expanded`.
* `cnull`        — `true` iff the JS `node.children` property is `null`
                   (three-valued children: `null` / `[]` / populated;
                   the actual child list lives in the tree structure).
* `matched`      — the JS `node.match` property; `none` = deleted/absent.
* `subMatchCount`— `node.subMatchCount`; `none` = deleted/absent.
* `titleWithHighlight` — `node.titleWithHighlight`; `none` = absent.
* `filterAutoExpanded` — `node._filterAutoExpanded` (absent ≡ false).
* `rowIdx`       — `node._rowIdx`.
* `rowElem`      — `true` iff `node._rowElem` is set (the row surface
                   exists; its DOM content is not modelled). -/
structure ND where
  title : String := ""
  expanded : Bool := false
  cnull : Bool := false
  matched : Option Bool := none
  subMatchCount : Option Nat := none
  titleWithHighlight : Option String := none
  filterAutoExpanded : Bool := false
  rowIdx : Nat := 0
  rowElem : Bool := false
deriving DecidableEq, Repr

/-- JS truthiness of the `node.match` property (`undefined` and `false`
are falsy). -/
def mTruthy : Option Bool → Bool
  | some true => true
  | _ => false

/-- JS truthiness of the `node.subMatchCount` property (`undefined` and
`0` are falsy). -/
def sTruthy : Option Nat → Bool
  | some (_ + 1) => true
  | _ => false

/-- A node of the wunderbaum tree: its record plus its ordered children.
A JS `children === null` node is represented with `cnull = true` and an
empty child list. -/
inductive NTree where
  | node (d : ND) (cs : List NTree)
deriving Repr

/-- The node's own record. -/
def NTree.data : NTree → ND
  | .node d _ => d

/-- The node's child list. -/
def NTree.cs : NTree → List NTree
  | .node _ cs => cs

theorem NTree.sizeOf_lt_of_mem {c : NTree} {d : ND} {cs : List NTree}
    (hc : c ∈ cs) : sizeOf c < sizeOf (NTree.node d cs) := by
  have h1 := List.sizeOf_lt_of_mem hc
  simp only [NTree.node.sizeOf_spec]
  omega

/-- Induction principle for `NTree` giving the hypothesis on every
member of the child list. -/
theorem NTree.myInduction {motive : NTree → Prop}
    (h : ∀ d cs, (∀ c ∈ cs, motive c) → motive (.node d cs)) :
    ∀ t, motive t
  | .node d cs => h d cs (fun c hc =>
      have : sizeOf c < sizeOf (NTree.node d cs) := NTree.sizeOf_lt_of_mem hc
      NTree.myInduction h c)
termination_by t => sizeOf t

/-- Paths address nodes positionally: `[]` is the (virtual) root of the
forest context, `i :: p` is path `p` inside the `i`-th child. -/
abbrev Path := List Nat

/-- Subtree of a tree at a path, `[]` = the node itself. -/
def subtreeAtT (t : NTree) : Path → Option NTree
  | [] => some t
  | i :: p => t.cs[i]? >>= fun c => subtreeAtT c p

/-- Node record at a path into a tree. -/
def dataAtT (t : NTree) (p : Path) : Option ND :=
  (subtreeAtT t p).map NTree.data

/-- The subtree of a forest at a path (`none` for the empty path: the
virtual root is not part of the forest). -/
def subtreeAtF (l : List NTree) : Path → Option NTree
  | [] => none
  | i :: p => l[i]? >>= fun t => subtreeAtT t p

/-- Node record at a path into a forest. -/
def dataAtF (l : List NTree) (p : Path) : Option ND :=
  (subtreeAtF l p).map NTree.data

/-! ## String utilities used by the filter extension

`escapeRegex` needs no model: the characters of the filter string are
matched literally, which the predicate models below do directly. -/

/-- Lower-casing a character models the `"i"` flag of the regexes built
in `_applyFilterImpl`. -/
def lowC (c : Char) : Char := c.toLower

/-- `startsWith n h`: the character list `h` begins with `n`. -/
def startsWith : List Char → List Char → Bool
  | [], _ => true
  | _ :: _, [] => false
  | a :: n, b :: h => a = b && startsWith n h

/-- `hasSub n h`: `n` occurs as a contiguous substring of `h`. Models a
literal (non-fuzzy) regex test on an already lower-cased text. -/
def hasSub (n : List Char) : List Char → Bool
  | [] => startsWith n []
  | c :: h => startsWith n (c :: h) || hasSub n (h)

/-- Scan for the first occurrence of `q`; return the characters before
it and the rest after it. Models one `([^q]*)q` step of the fuzzy
pattern: `[^q]*` cannot cross an occurrence of `q`, so the regex engine
deterministically captures exactly the run before the first `q`. -/
def takeUntil (q : Char) : List Char → Option (List Char × List Char)
  | [] => none
  | c :: h =>
    if c = q then some ([], h)
    else (takeUntil q h).map (fun gr => (c :: gr.1, gr.2))

/-- The capture groups of the fuzzy pattern built in `_applyFilterImpl`
(`filter.split("").map(escapeRegex).reduce(a + "([^b]*)" + b)`), matched
against `h`: one group of skipped characters per query character, in
order; `none` when the query is not a subsequence of the text.
Characters are expected already lower-cased (the `"i"` flag). -/
def fuzzyGroups : List Char → List Char → Option (List (List Char))
  | [], _ => some []
  | q :: qs, h =>
    match takeUntil q h with
    | none => none
    | some gr => (fuzzyGroups qs gr.2).map (fun gs => gr.1 :: gs)

/-- Modelled from the spec: `util.extractHtmlText` is imported by
`wb_ext_filter.ts` but `util.ts` is not under `src/`. Per §4.3 the
title "is first reduced to its text content if it contains markup";
modelled as dropping `<...>` tag spans. -/
def extractHtmlTextAux : Bool → List Char → List Char
  | _, [] => []
  | true, c :: rest =>
    if c = '>' then extractHtmlTextAux false rest
    else extractHtmlTextAux true rest
  | false, c :: rest =>
    if c = '<' then extractHtmlTextAux true rest
    else c :: extractHtmlTextAux false rest

/-- Modelled from the spec: text content of an HTML-bearing title. -/
def extractHtmlText (s : String) : String :=
  ⟨extractHtmlTextAux false s.data⟩

/-- Modelled from the spec: `util.escapeHtml` is imported by
`wb_ext_filter.ts` but `util.ts` is not under `src/`. Per §4.3 step 6
the whole string is HTML-escaped; modelled as the usual entity
replacement. -/
def escapeHtmlChar (c : Char) : List Char :=
  if c = '&' then "&amp;".data
  else if c = '<' then "&lt;".data
  else if c = '>' then "&gt;".data
  else if c = '"' then "&quot;".data
  else [c]

/-- Modelled from the spec: HTML-escape a string. -/
def escapeHtml (s : String) : String :=
  ⟨s.data.flatMap escapeHtmlChar⟩

/-- `START_MARKER = "￷"` of `wb_ext_filter.ts`. -/
def START_MARKER : String := ⟨[Char.ofNat 0xFFF7]⟩

/-- `END_MARKER = "￸"` of `wb_ext_filter.ts`. -/
def END_MARKER : String := ⟨[Char.ofNat 0xFFF8]⟩

/-! ## `_markFuzzyMatchedChars`

The function mutates a JS array `textPoses = text.split("")` by index —
possibly *beyond its end* — and then `join("")`s it. JS semantics are
modelled exactly: writing at an out-of-range index grows the array
(`length` becomes `index + 1`), the skipped slots become holes; reading
a hole or an out-of-range slot yields `undefined`, which string
concatenation renders as `"undefined"`; `join` renders holes as `""`. -/

/-- A JS array of strings: a length plus the value at each index
(`none` = hole / out of range). -/
structure JsArr where
  len : Nat
  val : Nat → Option String

/-- `text.split("")`. -/
def jsSplit (text : List Char) : JsArr :=
  ⟨text.length, fun i => (text[i]?).map (fun c => String.singleton c)⟩

/-- Reading `a[i]` for use in string concatenation: holes and
out-of-range reads give `undefined`, rendered `"undefined"`. -/
def jsReadConcat (a : JsArr) (i : Nat) : String :=
  match a.val i with
  | some s => s
  | none => "undefined"

/-- `a[i] = s`: extends `length` when writing past the end. -/
def jsSet (a : JsArr) (i : Nat) (s : String) : JsArr :=
  ⟨max a.len (i + 1), fun j => if j = i then some s else a.val j⟩

/-- `a.join("")`: holes render as the empty string. -/
def jsJoin (a : JsArr) : String :=
  (List.range a.len).foldl (fun acc i => acc ++ ((a.val i).getD "")) ""

/-- The index-derivation loop of `_markFuzzyMatchedChars`: for the
`i`-th capture group (1-based), the matched-character index is
`matches[i].length + (i === 1 ? 0 : 1) + (previous index, or 0)`.
`first` tracks `i === 1`, `prev` the last pushed index (0 initially;
`(x || 0)` re-reads a pushed `0` as `0`, so tracking the value is
exact). -/
def matchingIndicesAux (first : Bool) (prev : Nat) : List String → List Nat
  | [] => []
  | g :: gs =>
    let idx := g.length + (if first then 0 else 1) + prev
    idx :: matchingIndicesAux false idx gs

/-- `matchingIndices` computed by `_markFuzzyMatchedChars` from the
capture groups `matches[1], matches[2], ...`. -/
def matchingIndices (groups : List String) : List Nat :=
  matchingIndicesAux true 0 groups

/-- `_markFuzzyMatchedChars(text, matches, escapeTitles)`, with
`groups = matches.slice(1)` (the capture groups; `matches[0]` — the
full match — is never read). Wraps the character at each computed index
in `<mark>` tags, or in the exotic marker characters when
`escapeTitles`. -/
def markFuzzyMatchedChars (text : String) (groups : List String)
    (escapeTitles : Bool) : String :=
  let pre := if escapeTitles then START_MARKER else "<mark>"
  let post := if escapeTitles then END_MARKER else "</mark>"
  let textPoses :=
    (matchingIndices groups).foldl
      (fun a v => jsSet a v (pre ++ jsReadConcat a v ++ post))
      (jsSplit text.data)
  jsJoin textPoses

/-! ## The literal-mode highlighter

`text.replace(reHighlight, s => wrap + s + wrap)` where `reHighlight`
is the case-insensitively, globally matched literal filter string:
leftmost non-overlapping occurrences, each wrapped. -/

/-- One pass of a global case-insensitive literal replace: at each
position, if the lower-cased text starts with the lower-cased needle,
wrap that span (its original characters) and continue after it. The
needle is non-empty in every reachable call (the empty filter string
never builds a predicate). -/
def replaceCIAux (needle : List Char) (pre post : String) : List Char → String
  | [] => ""
  | c :: rest =>
    if h : needle ≠ [] ∧ startsWith needle ((c :: rest).map lowC) then
      let n := needle.length
      pre ++ (⟨(c :: rest).take n⟩ : String) ++ post
        ++ replaceCIAux needle pre post ((c :: rest).drop n)
    else
      String.singleton c ++ replaceCIAux needle pre post rest
termination_by l => l.length
decreasing_by
  · have hn : needle.length ≠ 0 := fun hz => h.1 (List.eq_nil_of_length_eq_zero hz)
    simp only [List.length_drop, List.length_cons]
    omega
  · simp

/-- `text.replace(new RegExp(escapeRegex(filter), "gi"), s => pre+s+post)`. -/
def replaceCI (text : String) (filterStr : String) (pre post : String) :
    String :=
  replaceCIAux (filterStr.data.map lowC) pre post text.data

/-- Replace the exotic markers by `<mark>` / `</mark>`
(`RE_START_MARKER` / `RE_END_MARTKER` replacement after escaping). -/
def markersToMark (s : String) : String :=
  (s.replace START_MARKER "<mark>").replace END_MARKER "</mark>"

/-! ## The string-filter predicate built in `_applyFilterImpl` -/

/-- The plain text the predicate matches against:
`escapeTitles ? node.title : extractHtmlText(node.title)`. -/
def filterText (escapeTitles : Bool) (d : ND) : String :=
  if escapeTitles then d.title else extractHtmlText d.title

/-- The boolean outcome of the compiled string filter on a node:
`if (!node.title) return false;` then a case-insensitive test —
substring containment for literal mode, subsequence match for fuzzy
mode (`new RegExp(match, "i")`). -/
def textMatches (fuzzy escapeTitles : Bool) (filterStr : String)
    (d : ND) : Bool :=
  if d.title = "" then false
  else
    let text := (filterText escapeTitles d).data.map lowC
    if fuzzy then (fuzzyGroups (filterStr.data.map lowC) text).isSome
    else hasSub (filterStr.data.map lowC) text

/-- `node.titleWithHighlight` as produced inside the compiled string
filter for a node the regex matched (`res && opts.highlight`): markers
first, HTML-escaping second, `<mark>` insertion last when
`escapeTitles`; direct `<mark>` wrapping otherwise. -/
def highlightTitle (fuzzy escapeTitles : Bool) (filterStr : String)
    (d : ND) : String :=
  let text := filterText escapeTitles d
  let groups : List String :=
    ((fuzzyGroups (filterStr.data.map lowC) (text.data.map lowC)).getD
      []).map (fun g => ⟨g⟩)
  if escapeTitles then
    let temp :=
      if fuzzy then markFuzzyMatchedChars text groups true
      else replaceCI text filterStr START_MARKER END_MARKER
    markersToMark (escapeHtml temp)
  else
    if fuzzy then markFuzzyMatchedChars text groups false
    else replaceCI text filterStr "<mark>" "</mark>"

/-! ## Filter extension state and options -/

/-- The recognized `tree.options.filter` options (defaults from the
`FilterExtension` constructor), plus `mode`. -/
structure FilterOpts where
  autoExpand : Bool := false
  fuzzy : Bool := false
  hideExpanders : Bool := false
  highlight : Bool := true
  leavesOnly : Bool := false
  mode : String := "hide"
  noData : Bool := true
deriving Repr

/-- The first argument of `_applyFilterImpl`: a filter string or a
callback. A callback is modelled as a function of the node record. -/
inductive FilterArg where
  | text (s : String)
  | cb (f : ND → FR)

/-- Tree-level state touched by the filter extension and the renderer.
`rootD` is the root node's record, `topLevel` the root's children.
`cssHide`/`cssDimm`/`cssHideExpanders` model the container classes
`wb-ext-filter-hide` / `-dimm` / `-hide-expanders`; `statusNoData`
models the `noData` status node (`tree.setStatus`, whose implementation
is not under `src/`, reduced to this flag). `lastFilterArgs` keeps only
whether arguments are stored (their content is opaque `IArguments`). -/
structure TState where
  rootD : ND := {}
  topLevel : List NTree := []
  escapeTitles : Bool := false
  filterMode : Option String := none
  statusNoData : Bool := false
  cssHide : Bool := false
  cssDimm : Bool := false
  cssHideExpanders : Bool := false
  lastFilterArgs : Bool := false

/-! ## The reset pass (`_applyFilterImpl`, "Reset current filter")

`tree.visit` starts at the root's children, so the root record itself
is *not* visited: only `tree.root.subMatchCount = 0` is applied to it —
`root.match` and `root.titleWithHighlight` are left alone. -/

/-- Per-node reset: `delete node.match; delete node.titleWithHighlight;
node.subMatchCount = 0;`. -/
def resetND (d : ND) : ND :=
  { d with matched := none, titleWithHighlight := none,
           subMatchCount := some 0 }

mutual

/-- Reset pass over a subtree. -/
def resetT : NTree → NTree
  | .node d cs => .node (resetND d) (resetF cs)

/-- Reset pass over a forest. -/
def resetF : List NTree → List NTree
  | [] => []
  | t :: ts => resetT t :: resetF ts

end

/-! ## The `"skip"` handler

`node.visit(c => { c.match = false; }, true)` sets `match = false` on
the node itself and its whole subtree; the outer visit then returns
`"skip"`, so none of these nodes is evaluated. -/

mutual

/-- Set `match = false` on a whole subtree. -/
def markFalseT : NTree → NTree
  | .node d cs => .node { d with matched := some false } (markFalseF cs)

/-- Set `match = false` on a whole forest. -/
def markFalseF : List NTree → List NTree
  | [] => []
  | t :: ts => markFalseT t :: markFalseF ts

end

/-! ## The evaluation pass of `_applyFilterImpl`

The imperative `tree.visit` walks the (already reset) tree in pre-order
and mutates nodes and their ancestors. The functional embedding below
returns, for a subtree, the updated subtree together with

* `count` — the number of `count++` executions inside the subtree
  (one per node whose evaluation result was truthy, inherited branch
  matches included), and
* `direct` — whether some node of the subtree got a truthy result with
  `matchedByBranch == false` (such nodes, and only they, trigger the
  `autoExpand` branch of `visitParents`, which also covers the node
  itself since `includeSelf = true`).

Correspondence with the mutation order of the source: pre-order
guarantees a node's own `match` is final before its children read
`node.parent.match`; each truthy node's `visitParents` adds 1 to every
strict ancestor's `subMatchCount`, so a node's final `subMatchCount` is
the reset `0` plus the number of truthy results in its strict
descendants; `setExpanded(true)` is monotone during the pass, so a node
ends expanded (and `_filterAutoExpanded`) iff it was, or `autoExpand`
holds, it was collapsed, and a non-inherited truthy result occurred at
the node or below it. -/

/-- Evaluation of the compiled/passed filter callback at one node,
including the `titleWithHighlight` side effect of a string filter
(`hl = some f` iff the filter is a string and `opts.highlight`). -/
def evalOne (P : ND → FR) (hl : Option (ND → String)) (d : ND) :
    FR × ND :=
  let res := P d
  match hl with
  | some f => (res, if res = .found then
      { d with titleWithHighlight := some (f d) } else d)
  | none => (res, d)

mutual

/-- Evaluation pass on a subtree whose parent's current `match`
truthiness is `pm`. Returns `(subtree', count, direct)`. -/
def evalT (P : ND → FR) (hl : Option (ND → String))
    (bm lo ae : Bool) (pm : Bool) : NTree → NTree × Nat × Bool
  | .node d cs =>
    if lo && !d.cnull then
      -- `if (leavesOnly && node.children != null) return;`
      -- not evaluated: `match` stays deleted, children see a falsy
      -- `node.parent.match`
      let r := evalF P hl bm lo ae (mTruthy d.matched) cs
      let d1 := { d with subMatchCount := some r.2.1 }
      let d2 := if ae && r.2.2 && !d1.expanded then
          { d1 with expanded := true, filterAutoExpanded := true }
        else d1
      (.node d2 r.1, r.2.1, r.2.2)
    else
      let rd := evalOne P hl d
      if rd.1 = .skip then
        (markFalseT (.node rd.2 cs), 0, false)
      else
        let matchedByBranch := (bm || rd.1 = .branch) && pm
        let truthy := rd.1.truthy || matchedByBranch
        let d1 := if truthy then { rd.2 with matched := some true }
          else rd.2
        let r := evalF P hl bm lo ae truthy cs
        let direct := truthy && !matchedByBranch
        let dirAll := direct || r.2.2
        let d2 := { d1 with subMatchCount := some r.2.1 }
        let d3 := if ae && dirAll && !d2.expanded then
            { d2 with expanded := true, filterAutoExpanded := true }
          else d2
        (.node d3 r.1, (if truthy then 1 else 0) + r.2.1, dirAll)

/-- Evaluation pass on a forest (children share the same `pm`). -/
def evalF (P : ND → FR) (hl : Option (ND → String))
    (bm lo ae : Bool) (pm : Bool) : List NTree → List NTree × Nat × Bool
  | [] => ([], 0, false)
  | t :: ts =>
    let r1 := evalT P hl bm lo ae pm t
    let r2 := evalF P hl bm lo ae pm ts
    (r1.1 :: r2.1, r1.2.1 + r2.2.1, r1.2.2 || r2.2.2)

end

/-! ## `clearFilter` -/

/-- Per-node effect of the `clearFilter` visit: the DOM title
restoration and `subMatchBadge` removal touch only the rendered
surface; on the node record it deletes `match`, `subMatchCount`,
`titleWithHighlight`, collapses the node if `_filterAutoExpanded` and
currently expanded, and deletes `_filterAutoExpanded`. -/
def clearND (d : ND) : ND :=
  let d1 := { d with matched := none, subMatchCount := none,
                     titleWithHighlight := none }
  let d2 := if d1.filterAutoExpanded && d1.expanded then
      { d1 with expanded := false }
    else d1
  { d2 with filterAutoExpanded := false }

mutual

/-- `clearFilter` visit over a subtree. -/
def clearT : NTree → NTree
  | .node d cs => .node (clearND d) (clearF cs)

/-- `clearFilter` visit over a forest. -/
def clearF : List NTree → List NTree
  | [] => []
  | t :: ts => clearT t :: clearF ts

end

/-- `FilterExtension.clearFilter()`: status back to ok, root's `match`
and `subMatchCount` deleted, the visit above on all other nodes,
`filterMode = null`, `lastFilterArgs = null`, and removal of the
`wb-ext-filter-dimm` / `wb-ext-filter-hide` container classes (the
`-hide-expanders` class is *not* removed by `clearFilter`). -/
def clearFilter (s : TState) : TState :=
  { s with
    statusNoData := false,
    rootD := { s.rootD with matched := none, subMatchCount := none },
    topLevel := clearF s.topLevel,
    filterMode := none,
    lastFilterArgs := false,
    cssDimm := false,
    cssHide := false }

/-! ## `_applyFilterImpl` -/

/-- The non-empty-filter body of `_applyFilterImpl`, after the filter
has been compiled to a callback `P` (plus the `titleWithHighlight`
writer `hl` of a string filter): `tree.filterMode = opts.mode`,
`lastFilterArgs`, the container-class toggles, `setStatus(ok)`, the
reset pass, the evaluation pass, root bookkeeping, the `noData`
status, and `return count`. -/
def applyFilterRun (P : ND → FR) (hl : Option (ND → String))
    (branchMode : Bool) (opts : FilterOpts) (s : TState) :
    TState × Option Nat :=
  let hideMode := opts.mode = "hide"
  let leavesOnly := opts.leavesOnly && !branchMode
  let reset := resetF s.topLevel
  let r := evalF P hl branchMode leavesOnly opts.autoExpand
    (mTruthy s.rootD.matched) reset
  let count := r.2.1
  -- root bookkeeping: `tree.root.subMatchCount = 0` plus one increment
  -- per truthy match (every `visitParents` walk ends at the root); the
  -- root is itself a `p` of every `visitParents` call, so `autoExpand`
  -- can expand it too
  let rootD1 := { s.rootD with subMatchCount := some count }
  let rootD2 := if opts.autoExpand && r.2.2 && !rootD1.expanded then
      { rootD1 with expanded := true, filterAutoExpanded := true }
    else rootD1
  ({ s with
      rootD := rootD2,
      topLevel := r.1,
      filterMode := some opts.mode,
      lastFilterArgs := true,
      cssHide := hideMode,
      cssDimm := !hideMode,
      cssHideExpanders := opts.hideExpanders,
      statusNoData := decide (count = 0) && opts.noData && hideMode },
   some count)

/-- `FilterExtension._applyFilterImpl(filter, branchMode, _opts)`.
Returns the new tree state and the returned value: `none` models the
bare `return;` of the empty-string branch (JS `undefined`), `some n`
the final `return count;`. -/
def applyFilterImpl (filter : FilterArg) (branchMode : Bool)
    (opts : FilterOpts) (s : TState) : TState × Option Nat :=
  match filter with
  | .text str =>
    if str = "" then
      -- "Passing an empty string as a filter is handled as clearFilter()."
      (clearFilter s, none)
    else
      applyFilterRun
        (fun d =>
          if textMatches opts.fuzzy s.escapeTitles str d then .found
          else .notFound)
        (if opts.highlight then
          some (highlightTitle opts.fuzzy s.escapeTitles str)
         else none)
        branchMode opts s
  | .cb f => applyFilterRun f none branchMode opts s

/-- `FilterExtension.filterNodes(filter, opts)`. -/
def filterNodes (filter : FilterArg) (opts : FilterOpts) (s : TState) :
    TState × Option Nat :=
  applyFilterImpl filter false opts s

/-- `FilterExtension.filterBranches(filter, opts)`. -/
def filterBranches (filter : FilterArg) (opts : FilterOpts) (s : TState) :
    TState × Option Nat :=
  applyFilterImpl filter true opts s

/-! ## Specification-side observers

The following definitions are used to *state* properties of the pass.
They re-walk the control flow of `_applyFilterImpl` to classify each
node, so claims can talk about "the node was pruned by skip / skipped
by leavesOnly / matched by inheritance" without reference to the
updated tree. -/

mutual

/-- Number of nodes with a truthy `match` in a subtree. -/
def countMT : NTree → Nat
  | .node d cs => (if mTruthy d.matched then 1 else 0) + countMF cs

/-- Number of nodes with a truthy `match` in a forest. -/
def countMF : List NTree → Nat
  | [] => 0
  | t :: ts => countMT t + countMF ts

end

mutual

/-- All nodes of a subtree are in the state the reset pass produces:
`match` deleted and `subMatchCount = 0`. -/
def resetLikeT : NTree → Bool
  | .node d cs => d.matched = none && d.subMatchCount = some 0
      && resetLikeF cs

/-- All nodes of a forest are reset. -/
def resetLikeF : List NTree → Bool
  | [] => true
  | t :: ts => resetLikeT t && resetLikeF ts

end

/-- How the evaluation pass treated a node. -/
inductive Fate where
  /-- `leavesOnly && node.children != null`: the callback was not
  evaluated at this node. -/
  | leavesSkipped
  /-- The node is inside a subtree whose root's callback returned
  `"skip"` (including that root itself): `match` was forced `false`
  and the callback was not evaluated below. -/
  | inSkip
  /-- The callback was evaluated with result `res`;
  `mbb = (branchMode || res === "branch") && node.parent.match`. -/
  | evaluated (res : FR) (mbb : Bool)
deriving DecidableEq, Repr

/-- Classify the node at path `p` of a subtree whose parent's `match`
truthiness is `pm`, re-tracing the pre-order control flow of the
evaluation pass. -/
def fateT (P : ND → FR) (bm lo : Bool) (pm : Bool) :
    NTree → Path → Option Fate
  | .node d cs, p =>
    if lo && !d.cnull then
      match p with
      | [] => some .leavesSkipped
      | i :: rest =>
        cs[i]? >>= fun c => fateT P bm lo (mTruthy d.matched) c rest
    else
      let res := P d
      if res = .skip then
        (subtreeAtT (.node d cs) p).map (fun _ => .inSkip)
      else
        let mbb := (bm || res = .branch) && pm
        let truthy := res.truthy || mbb
        match p with
        | [] => some (.evaluated res mbb)
        | i :: rest => cs[i]? >>= fun c => fateT P bm lo truthy c rest

mutual

/-- Whether some node of the subtree receives a truthy result that is
*not* matched-by-inheritance (`matchedByBranch = false`): exactly these
nodes run the `autoExpand` branch of `visitParents`. -/
def hasDirectT (P : ND → FR) (bm lo : Bool) (pm : Bool) : NTree → Bool
  | .node d cs =>
    if lo && !d.cnull then
      hasDirectF P bm lo (mTruthy d.matched) cs
    else
      let res := P d
      if res = .skip then false
      else
        let mbb := (bm || res = .branch) && pm
        let truthy := res.truthy || mbb
        (truthy && !mbb) || hasDirectF P bm lo truthy cs

/-- `hasDirectT` over a forest. -/
def hasDirectF (P : ND → FR) (bm lo : Bool) (pm : Bool) :
    List NTree → Bool
  | [] => false
  | t :: ts => hasDirectT P bm lo pm t || hasDirectF P bm lo pm ts

end

/-! ## Helper lemmas: the node-map passes commute with path lookup -/

theorem clearF_eq_map (l : List NTree) : clearF l = l.map clearT := by
  induction l with
  | nil => rfl
  | cons t ts ih => simp [clearF, ih]

theorem clearT_cs (t : NTree) : (clearT t).cs = clearF t.cs := by
  cases t with
  | node d cs => simp [clearT, NTree.cs]

theorem clearT_data (t : NTree) : (clearT t).data = clearND t.data := by
  cases t with
  | node d cs => simp [clearT, NTree.data]

theorem subtreeAtT_clearT (p : Path) :
    ∀ t, subtreeAtT (clearT t) p = (subtreeAtT t p).map clearT := by
  induction p with
  | nil => intro t; simp [subtreeAtT]
  | cons i rest ih =>
    intro t
    simp only [subtreeAtT, clearT_cs, clearF_eq_map, List.getElem?_map]
    cases h : t.cs[i]? with
    | none => rfl
    | some c => simp [ih c]

theorem dataAtT_clearT (t : NTree) (p : Path) :
    dataAtT (clearT t) p = (dataAtT t p).map clearND := by
  simp only [dataAtT, subtreeAtT_clearT]
  cases subtreeAtT t p with
  | none => rfl
  | some c => simp [clearT_data]

theorem resetF_eq_map (l : List NTree) : resetF l = l.map resetT := by
  induction l with
  | nil => rfl
  | cons t ts ih => simp [resetF, ih]

theorem resetT_cs (t : NTree) : (resetT t).cs = resetF t.cs := by
  cases t with
  | node d cs => simp [resetT, NTree.cs]

theorem resetT_data (t : NTree) : (resetT t).data = resetND t.data := by
  cases t with
  | node d cs => simp [resetT, NTree.data]

theorem markFalseF_eq_map (l : List NTree) :
    markFalseF l = l.map markFalseT := by
  induction l with
  | nil => rfl
  | cons t ts ih => simp [markFalseF, ih]

theorem markFalseT_cs (t : NTree) : (markFalseT t).cs = markFalseF t.cs := by
  cases t with
  | node d cs => simp [markFalseT, NTree.cs]

theorem markFalseT_data (t : NTree) :
    (markFalseT t).data = { t.data with matched := some false } := by
  cases t with
  | node d cs => simp [markFalseT, NTree.data]

theorem subtreeAtT_markFalseT (p : Path) :
    ∀ t, subtreeAtT (markFalseT t) p = (subtreeAtT t p).map markFalseT := by
  induction p with
  | nil => intro t; simp [subtreeAtT]
  | cons i rest ih =>
    intro t
    simp only [subtreeAtT, markFalseT_cs, markFalseF_eq_map,
      List.getElem?_map]
    cases h : t.cs[i]? with
    | none => rfl
    | some c => simp [ih c]

theorem dataAtT_markFalseT (t : NTree) (p : Path) :
    dataAtT (markFalseT t) p =
      (dataAtT t p).map (fun d => { d with matched := some false }) := by
  simp only [dataAtT, subtreeAtT_markFalseT]
  cases subtreeAtT t p with
  | none => rfl
  | some c => simp [markFalseT_data]

/-! ## C5 and C6 -/

/-- A node record with all filter fields cleared. -/
def filterCleared (d : ND) : Prop :=
  d.matched = none ∧ d.subMatchCount = none ∧ d.titleWithHighlight = none

theorem clearND_cleared (d : ND) : filterCleared (clearND d) := by
  simp only [clearND]
  constructor
  · split <;> rfl
  · constructor <;> (split <;> rfl)

theorem dataAtF_clearF (l : List NTree) (p : Path) :
    dataAtF (clearF l) p = (dataAtF l p).map clearND := by
  rcases p with _ | ⟨i, rest⟩
  · rfl
  · simp only [dataAtF, subtreeAtF, clearF_eq_map, List.getElem?_map]
    cases h : l[i]? with
    | none => rfl
    | some c =>
      cases hc : subtreeAtT c rest with
      | none => simp [subtreeAtT_clearT, hc]
      | some t0 => simp [subtreeAtT_clearT, hc, clearT_data]

theorem applyFilterRun_rootD_twh (P : ND → FR) (hl : Option (ND → String))
    (bm : Bool) (opts : FilterOpts) (s : TState) :
    (applyFilterRun P hl bm opts s).1.rootD.titleWithHighlight
      = s.rootD.titleWithHighlight := by
  unfold applyFilterRun
  dsimp only
  split <;> rfl

/-- `applyFilterImpl` never touches the root's `titleWithHighlight`. -/
theorem applyFilterImpl_rootD_twh (filter : FilterArg) (bm : Bool)
    (opts : FilterOpts) (s : TState) :
    (applyFilterImpl filter bm opts s).1.rootD.titleWithHighlight
      = s.rootD.titleWithHighlight := by
  unfold applyFilterImpl
  cases filter with
  | text str =>
    by_cases hstr : str = ""
    · simp [hstr, clearFilter]
    · simp [hstr, applyFilterRun_rootD_twh]
  | cb f => simp [applyFilterRun_rootD_twh]

/-- C5 — `clearFilter()` after any `_applyFilterImpl` call leaves every
node (the root included) with `match`, `subMatchCount` and
`titleWithHighlight` absent, and resets `tree.filterMode` to `null`.
(The root's `titleWithHighlight` is never touched by either operation,
hence the hypothesis that it starts absent — as it is in any reachable
state, since no code path ever sets it.) -/
theorem C5_clearFilter_clears (filter : FilterArg) (bm : Bool)
    (opts : FilterOpts) (s : TState)
    (hroot : s.rootD.titleWithHighlight = none) :
    (clearFilter (applyFilterImpl filter bm opts s).1).filterMode = none ∧
    filterCleared (clearFilter (applyFilterImpl filter bm opts s).1).rootD ∧
    (∀ p d, dataAtF
        (clearFilter (applyFilterImpl filter bm opts s).1).topLevel p
          = some d → filterCleared d) := by
  have hroot1 : (applyFilterImpl filter bm opts s).1.rootD.titleWithHighlight
      = none := by rw [applyFilterImpl_rootD_twh]; exact hroot
  refine ⟨rfl, ?_, ?_⟩
  · exact ⟨rfl, rfl, hroot1⟩
  · intro p d hd
    simp only [clearFilter] at hd
    rw [dataAtF_clearF] at hd
    cases h : dataAtF (applyFilterImpl filter bm opts s).1.topLevel p with
    | none => rw [h] at hd; cases hd
    | some d0 =>
      rw [h] at hd
      have : clearND d0 = d := by simpa using hd
      rw [← this]
      exact clearND_cleared _

/-- Witness for C5 at a concrete tree and filter. -/
theorem C5_witness :
    ({ topLevel := [.node { title := "x" } []] } : TState).rootD.titleWithHighlight = none ∧
    (clearFilter (applyFilterImpl (.text "x") false {}
        { topLevel := [.node { title := "x" } []] }).1).filterMode = none := by
  exact ⟨rfl, (C5_clearFilter_clears (.text "x") false {}
    { topLevel := [.node { title := "x" } []] } rfl).1⟩

/-! ## C7 and C8: the fuzzy highlight index derivation -/

theorem matchingIndicesAux_false (gs : List String) :
    ∀ p, matchingIndicesAux false p gs =
      (List.range gs.length).map
        (fun i => p + ((gs.take (i + 1)).map String.length).sum + (i + 1)) := by
  induction gs with
  | nil => intro p; rfl
  | cons g gs ih =>
    intro p
    simp only [matchingIndicesAux, List.length_cons,
      List.range_succ_eq_map, List.map_cons, Bool.false_eq_true, if_false]
    rw [List.cons_eq_cons]
    constructor
    · simp only [List.take, List.map_cons, List.sum_cons, List.take_zero,
        List.map_nil, List.sum_nil]
      omega
    · rw [ih (g.length + 1 + p)]
      rw [List.map_map]
      apply List.map_congr_left
      intro i hi
      simp only [Function.comp, List.take_succ_cons, List.map_cons,
        List.sum_cons]
      omega

theorem matchingIndices_formula (gs : List String) :
    matchingIndices gs =
      (List.range gs.length).map
        (fun i => ((gs.take (i + 1)).map String.length).sum + i) := by
  cases gs with
  | nil => rfl
  | cons g gs =>
    simp only [matchingIndices, matchingIndicesAux, List.length_cons,
      List.range_succ_eq_map, List.map_cons, if_true]
    rw [List.cons_eq_cons]
    constructor
    · simp
    · rw [matchingIndicesAux_false]
      rw [List.map_map]
      apply List.map_congr_left
      intro i hi
      simp only [Function.comp, List.take_succ_cons, List.map_cons,
        List.sum_cons]
      omega

theorem matchingIndicesAux_mono (gs : List String) :
    ∀ p, List.Chain' (· < ·) (matchingIndicesAux false p gs) ∧
      (∀ x ∈ (matchingIndicesAux false p gs).head?, p < x) := by
  induction gs with
  | nil => intro p; exact ⟨List.chain'_nil, by simp [matchingIndicesAux]⟩
  | cons g gs ih =>
    intro p
    simp only [matchingIndicesAux, Bool.false_eq_true, if_false]
    constructor
    · rw [List.chain'_cons']
      refine ⟨?_, (ih _).1⟩
      intro y hy
      have := (ih (g.length + 1 + p)).2 y hy
      omega
    · intro x hx
      simp only [List.head?_cons, Option.mem_def, Option.some_inj] at hx
      omega

theorem matchingIndices_mono (gs : List String) :
    List.Chain' (· < ·) (matchingIndices gs) := by
  cases gs with
  | nil => exact List.chain'_nil
  | cons g gs =>
    simp only [matchingIndices, matchingIndicesAux, if_true]
    rw [List.chain'_cons']
    refine ⟨?_, (matchingIndicesAux_mono gs _).1⟩
    intro y hy
    have := (matchingIndicesAux_mono gs (g.length + 0 + 0)).2 y (by
      simpa using hy)
    omega

/-- C7 — the fuzzy highlight index of query character `i` (0-based) is
the cumulative length of the capture groups up to and including group
`i`, plus one for each prior matched character; these indices are
strictly increasing; and the fuzzy filter `"fb"` on title `"FooBar"`
matches with groups `"", "oo"` and highlighted indices 0 and 3
(wrapping `F` and `B`). -/
theorem C7_fuzzy_index_derivation :
    (∀ gs : List String, matchingIndices gs =
      (List.range gs.length).map
        (fun i => ((gs.take (i + 1)).map String.length).sum + i)) ∧
    (∀ gs : List String, List.Chain' (· < ·) (matchingIndices gs)) ∧
    fuzzyGroups ("fb".data.map lowC) ("FooBar".data.map lowC)
      = some ["".data, "oo".data] ∧
    matchingIndices ["", "oo"] = [0, 3] ∧
    textMatches true false "fb" { title := "FooBar" } = true ∧
    highlightTitle true false "fb" { title := "FooBar" }
      = "<mark>F</mark>oo<mark>B</mark>ar" := by
  refine ⟨matchingIndices_formula, matchingIndices_mono, ?_, ?_, ?_, ?_⟩
  · rfl
  · rfl
  · rfl
  · rfl

/-- C8 — `_markFuzzyMatchedChars` on malformed match groups whose
computed index lies beyond the end of the title: the write
`textPoses[10] = "<mark>" + textPoses[10] + "</mark>"` reads
`undefined`, extends the array with holes, and `join` then emits the
spurious text `<mark>undefined</mark>` instead of skipping the
out-of-range index. -/
theorem C8_markFuzzy_outOfRange_corrupts :
    matchingIndices ["aaaaaaaaaa"] = [10] ∧
    String.length "abc" = 3 ∧
    markFuzzyMatchedChars "abc" ["aaaaaaaaaa"] false
      = "abc<mark>undefined</mark>" := by
  refine ⟨rfl, rfl, ?_⟩
  rfl

/-! ## Helper lemmas about the evaluation pass -/

theorem evalOne_matched (P : ND → FR) (hl : Option (ND → String))
    (d : ND) : (evalOne P hl d).2.matched = d.matched := by
  unfold evalOne
  cases hl <;> dsimp only <;> split <;> rfl

theorem evalOne_subMatchCount (P : ND → FR) (hl : Option (ND → String))
    (d : ND) : (evalOne P hl d).2.subMatchCount = d.subMatchCount := by
  unfold evalOne
  cases hl <;> dsimp only <;> split <;> rfl

theorem evalOne_expanded (P : ND → FR) (hl : Option (ND → String))
    (d : ND) : (evalOne P hl d).2.expanded = d.expanded := by
  unfold evalOne
  cases hl <;> dsimp only <;> split <;> rfl

theorem evalOne_filterAutoExpanded (P : ND → FR)
    (hl : Option (ND → String)) (d : ND) :
    (evalOne P hl d).2.filterAutoExpanded = d.filterAutoExpanded := by
  unfold evalOne
  cases hl <;> dsimp only <;> split <;> rfl

theorem evalOne_cnull (P : ND → FR) (hl : Option (ND → String))
    (d : ND) : (evalOne P hl d).2.cnull = d.cnull := by
  unfold evalOne
  cases hl <;> dsimp only <;> split <;> rfl

theorem evalOne_fst (P : ND → FR) (hl : Option (ND → String))
    (d : ND) : (evalOne P hl d).1 = P d := by
  unfold evalOne
  cases hl <;> dsimp only <;> split <;> rfl

theorem countMF_markFalseF_aux (l : List NTree)
    (ih : ∀ c ∈ l, countMT (markFalseT c) = 0) :
    countMF (markFalseF l) = 0 := by
  induction l with
  | nil => rfl
  | cons t ts ihl =>
    simp only [markFalseF, countMF]
    rw [ih t (by simp), ihl (fun c hc => ih c (by simp [hc]))]

theorem countMT_markFalseT : ∀ t, countMT (markFalseT t) = 0 := by
  apply NTree.myInduction
  intro d cs ih
  simp only [markFalseT, countMT, mTruthy]
  rw [countMF_markFalseF_aux cs ih]
  simp

theorem resetLikeT_node {d : ND} {cs : List NTree}
    (h : resetLikeT (.node d cs) = true) :
    d.matched = none ∧ d.subMatchCount = some 0 ∧ resetLikeF cs = true := by
  simp only [resetLikeT, Bool.and_eq_true, decide_eq_true_eq] at h
  exact ⟨h.1.1, h.1.2, h.2⟩

theorem resetLikeF_mem {l : List NTree} {c : NTree}
    (h : resetLikeF l = true) (hc : c ∈ l) : resetLikeT c = true := by
  induction l with
  | nil => cases hc
  | cons t ts ih =>
    simp only [resetLikeF, Bool.and_eq_true] at h
    cases hc with
    | head => exact h.1
    | tail _ hm => exact ih h.2 hm

theorem resetLikeT_resetT : ∀ t, resetLikeT (resetT t) = true := by
  apply NTree.myInduction
  intro d cs ih
  have hrest : resetLikeF (resetF cs) = true := by
    rw [resetF_eq_map]
    induction cs with
    | nil => rfl
    | cons c cs2 ihl =>
      simp only [List.map_cons, resetLikeF, Bool.and_eq_true]
      exact ⟨ih c (by simp), ihl (fun x hx => ih x (by simp [hx]))⟩
  simp [resetT, resetLikeT, resetND, hrest]

theorem resetLikeF_resetF (l : List NTree) :
    resetLikeF (resetF l) = true := by
  rw [resetF_eq_map]
  induction l with
  | nil => rfl
  | cons t ts ih =>
    simp only [List.map_cons, resetLikeF, Bool.and_eq_true]
    exact ⟨resetLikeT_resetT t, ih⟩

/-- On a reset subtree, the `count` the pass returns equals the number
of nodes of the updated subtree holding a truthy `match`. -/
theorem evalT_count (P : ND → FR) (hl : Option (ND → String))
    (bm lo ae : Bool) :
    ∀ t, ∀ pm, resetLikeT t = true →
      countMT (evalT P hl bm lo ae pm t).1
        = (evalT P hl bm lo ae pm t).2.1 := by
  apply NTree.myInduction
  intro d cs ih pm hr
  obtain ⟨hm, hs, hf⟩ := resetLikeT_node hr
  have ihF : ∀ pm2, countMF (evalF P hl bm lo ae pm2 cs).1
      = (evalF P hl bm lo ae pm2 cs).2.1 := by
    intro pm2
    clear hr
    induction cs with
    | nil => rfl
    | cons c cs2 ihl =>
      simp only [resetLikeF, Bool.and_eq_true] at hf
      simp only [evalF, countMF]
      rw [ih c (by simp) pm2 hf.1,
        ihl (fun x hx => ih x (by simp [hx])) hf.2]
  show countMT (evalT P hl bm lo ae pm (.node d cs)).1 = _
  unfold evalT
  dsimp only
  split
  · -- leavesOnly skip: `match` keeps its reset value `none`
    split <;> simp [countMT, hm, mTruthy, ihF]
  · split
    · -- "skip" result
      rw [countMT_markFalseT]
    · -- evaluated: the node contributes 1 iff its result was truthy
      by_cases ht : ((evalOne P hl d).1.truthy
          || (bm || decide ((evalOne P hl d).1 = FR.branch)) && pm) = true
      · simp only [ht]
        simp [countMT, mTruthy, ihF, ht, apply_ite ND.matched]
      · simp only [eq_false_of_ne_true ht]
        simp [countMT, mTruthy, ihF, evalOne_matched, hm,
          eq_false_of_ne_true ht, apply_ite ND.matched]

theorem evalF_count (P : ND → FR) (hl : Option (ND → String))
    (bm lo ae : Bool) (l : List NTree) (pm : Bool)
    (h : resetLikeF l = true) :
    countMF (evalF P hl bm lo ae pm l).1 = (evalF P hl bm lo ae pm l).2.1 := by
  induction l with
  | nil => rfl
  | cons t ts ih =>
    simp only [resetLikeF, Bool.and_eq_true] at h
    simp only [evalF, countMF]
    rw [evalT_count P hl bm lo ae t pm h.1, ih h.2]

theorem countMF_markFalseF (l : List NTree) : countMF (markFalseF l) = 0 :=
  countMF_markFalseF_aux l (fun c _ => countMT_markFalseT c)

theorem evalF_getElem (P : ND → FR) (hl : Option (ND → String))
    (bm lo ae pm : Bool) (l : List NTree) (i : Nat) :
    ((evalF P hl bm lo ae pm l).1)[i]?
      = (l[i]?).map (fun c => (evalT P hl bm lo ae pm c).1) := by
  induction l generalizing i with
  | nil => rfl
  | cons t ts ih =>
    cases i with
    | zero => simp [evalF]
    | succ j => simpa [evalF] using ih j

theorem resetLikeT_subtree : ∀ (p : Path) (t u : NTree),
    resetLikeT t = true → subtreeAtT t p = some u →
    resetLikeT u = true := by
  intro p
  induction p with
  | nil =>
    intro t u ht hu
    cases hu
    exact ht
  | cons i rest ih =>
    intro t u ht hu
    cases t with
    | node d cs =>
      simp only [subtreeAtT, NTree.cs] at hu
      cases hc : cs[i]? with
      | none => rw [hc] at hu; cases hu
      | some c =>
        rw [hc] at hu
        exact ih c u (resetLikeF_mem (resetLikeT_node ht).2.2
          (List.getElem?_mem hc)) hu

theorem hasDirectF_mem {P : ND → FR} {bm lo pm : Bool} {l : List NTree}
    {c : NTree} (h : hasDirectF P bm lo pm l = false) (hc : c ∈ l) :
    hasDirectT P bm lo pm c = false := by
  induction l with
  | nil => cases hc
  | cons t ts ih =>
    simp only [hasDirectF, Bool.or_eq_false_iff] at h
    cases hc with
    | head => exact h.1
    | tail _ hm => exact ih h.2 hm

/-- The `direct` component the pass returns is `hasDirectT`. -/
theorem evalT_dir (P : ND → FR) (hl : Option (ND → String))
    (bm lo ae : Bool) :
    ∀ t pm, (evalT P hl bm lo ae pm t).2.2 = hasDirectT P bm lo pm t := by
  apply NTree.myInduction
  intro d cs ih pm
  have ihF : ∀ pm2, (evalF P hl bm lo ae pm2 cs).2.2
      = hasDirectF P bm lo pm2 cs := by
    intro pm2
    induction cs with
    | nil => rfl
    | cons c cs2 ihl =>
      simp only [evalF, hasDirectF]
      rw [ih c (by simp) pm2, ihl (fun x hx => ih x (by simp [hx]))]
  show (evalT P hl bm lo ae pm (.node d cs)).2.2 = _
  unfold evalT hasDirectT
  dsimp only
  split
  · exact ihF _
  · rw [evalOne_fst]
    split
    · rfl
    · dsimp only
      rw [ihF]

theorem evalF_dir (P : ND → FR) (hl : Option (ND → String))
    (bm lo ae : Bool) (l : List NTree) (pm : Bool) :
    (evalF P hl bm lo ae pm l).2.2 = hasDirectF P bm lo pm l := by
  induction l with
  | nil => rfl
  | cons t ts ih =>
    simp only [evalF, hasDirectF]
    rw [evalT_dir P hl bm lo ae t pm, ih]

/-- Frame property: where the pass finds no direct (non-inherited)
match, no `expanded` or `_filterAutoExpanded` flag changes. -/
theorem evalT_expanded_frame (P : ND → FR) (hl : Option (ND → String))
    (bm lo ae : Bool) :
    ∀ t pm, hasDirectT P bm lo pm t = false →
      ∀ p, (dataAtT (evalT P hl bm lo ae pm t).1 p).map
            (fun d => (d.expanded, d.filterAutoExpanded))
          = (dataAtT t p).map
            (fun d => (d.expanded, d.filterAutoExpanded)) := by
  apply NTree.myInduction
  intro d cs ih pm hnd p
  have ihF : ∀ pm2, hasDirectF P bm lo pm2 cs = false →
      ∀ i rest, (dataAtF (evalF P hl bm lo ae pm2 cs).1 (i :: rest)).map
          (fun d => (d.expanded, d.filterAutoExpanded))
        = (dataAtF cs (i :: rest)).map
          (fun d => (d.expanded, d.filterAutoExpanded)) := by
    intro pm2 h2 i rest
    simp only [dataAtF, subtreeAtF, evalF_getElem]
    cases hc : cs[i]? with
    | none => rfl
    | some c =>
      simp only [Option.map_some', Option.some_bind]
      have := ih c (List.getElem?_mem hc) pm2
        (hasDirectF_mem h2 (List.getElem?_mem hc)) rest
      simpa [dataAtT] using this
  show (dataAtT (evalT P hl bm lo ae pm (.node d cs)).1 p).map _ = _
  unfold evalT
  dsimp only
  unfold hasDirectT at hnd
  dsimp only at hnd
  split
  · -- leavesOnly-skipped node
    rename_i hlo
    rw [hlo] at hnd
    simp only [if_true] at hnd
    have hdir : (evalF P hl bm lo ae (mTruthy d.matched) cs).2.2 = false := by
      rw [evalF_dir]; exact hnd
    rcases p with _ | ⟨i, rest⟩
    · simp [dataAtT, subtreeAtT, NTree.data, hdir]
    · simp only [dataAtT, subtreeAtT, NTree.cs, hdir]
      have := ihF (mTruthy d.matched) hnd i rest
      simp only [dataAtF, subtreeAtF] at this
      simpa [hdir] using this
  · rename_i hlo
    rw [if_neg (by simpa using hlo)] at hnd
    split
    · -- "skip": only `match` changes in the subtree
      rcases p with _ | ⟨i, rest⟩
      · simp only [dataAtT, subtreeAtT, Option.map_some']
        rw [markFalseT_data]
        simp [NTree.data, evalOne_expanded, evalOne_filterAutoExpanded]
      · rw [dataAtT_markFalseT]
        have heq : dataAtT (NTree.node (evalOne P hl d).2 cs) (i :: rest)
            = dataAtT (NTree.node d cs) (i :: rest) := by
          simp [dataAtT, subtreeAtT, NTree.cs]
        rw [heq]
        cases dataAtT (NTree.node d cs) (i :: rest) <;> simp
    · -- evaluated, no direct match anywhere below
      rename_i hres
      rw [evalOne_fst] at hres
      rw [if_neg hres] at hnd
      rw [evalOne_fst]
      simp only [Bool.or_eq_false_iff] at hnd
      have hdir : (evalF P hl bm lo ae
          (FR.truthy (P d) || (bm || decide (P d = FR.branch)) && pm)
          cs).2.2 = false := by
        rw [evalF_dir]; exact hnd.2
      rcases p with _ | ⟨i, rest⟩
      · have hfalse : (((P d).truthy || (bm || decide (P d = FR.branch)) && pm)
              && !((bm || decide (P d = FR.branch)) && pm)
            || (evalF P hl bm lo ae
                ((P d).truthy || (bm || decide (P d = FR.branch)) && pm)
                cs).2.2) = false := by
          rw [hnd.1, hdir]
          rfl
        simp only [dataAtT, subtreeAtT, Option.map_some', NTree.data]
        split <;>
          (rename_i htr
           split
           · rename_i hcond
             rw [hfalse] at hcond
             simp at hcond
           · simp [evalOne_expanded, evalOne_filterAutoExpanded])
      · simp only [dataAtT, subtreeAtT, NTree.cs, hdir]
        have := ihF _ hnd.2 i rest
        simp only [dataAtF, subtreeAtF] at this
        simpa [hdir] using this

/-- The value the pass leaves in `node.match`, as a function of the
node's fate: truthy evaluation ⇒ `true`; falsy evaluation or
leavesOnly-skip ⇒ the property stays deleted; inside a `"skip"`
subtree ⇒ `false`. -/
def fateMatch : Fate → Option Bool
  | .evaluated res mbb => if res.truthy || mbb then some true else none
  | .inSkip => some false
  | .leavesSkipped => none

theorem evalT_matched_char (P : ND → FR) (hl : Option (ND → String))
    (bm lo ae : Bool) :
    ∀ t pm, resetLikeT t = true →
      ∀ p f, fateT P bm lo pm t p = some f →
      ∀ d', dataAtT (evalT P hl bm lo ae pm t).1 p = some d' →
        d'.matched = fateMatch f := by
  apply NTree.myInduction
  intro d cs ih pm hr p f hf d' hd'
  obtain ⟨hm, hs, hcs⟩ := resetLikeT_node hr
  have ihF : ∀ (pm2 : Bool) (i : Nat) (rest : Path),
      (cs[i]? >>= fun c => fateT P bm lo pm2 c rest) = some f →
      ((evalF P hl bm lo ae pm2 cs).1[i]? >>=
        fun c => subtreeAtT c rest).map NTree.data = some d' →
      d'.matched = fateMatch f := by
    intro pm2 i rest hf2 hd2
    rw [evalF_getElem] at hd2
    cases hc : cs[i]? with
    | none => rw [hc] at hd2; cases hd2
    | some c =>
      rw [hc] at hf2 hd2
      exact ih c (List.getElem?_mem hc) pm2
        (resetLikeF_mem hcs (List.getElem?_mem hc)) rest f hf2 d'
        (by simpa [dataAtT] using hd2)
  unfold fateT at hf
  unfold evalT at hd'
  dsimp only at hf hd'
  rw [evalOne_fst] at hd'
  by_cases hlo : (lo && !d.cnull) = true
  · rw [if_pos hlo] at hf hd'
    rcases p with _ | ⟨i, rest⟩
    · cases hf
      -- `match` is untouched in this branch
      simp only [dataAtT, subtreeAtT, Option.map_some', NTree.data,
        Option.some_inj] at hd'
      rw [← hd']
      split <;> simp [fateMatch, hm]
    · exact ihF (mTruthy d.matched) i rest hf
        (by simpa [dataAtT, subtreeAtT, NTree.cs] using hd')
  · rw [if_neg hlo] at hf hd'
    by_cases hsk : P d = FR.skip
    · rw [if_pos hsk] at hf hd'
      have hfin : f = .inSkip := by
        cases hsub : subtreeAtT (.node d cs) p with
        | none => rw [hsub] at hf; cases hf
        | some u => rw [hsub] at hf; cases hf; rfl
      subst hfin
      rw [dataAtT_markFalseT] at hd'
      cases hx : dataAtT (.node (evalOne P hl d).2 cs) p with
      | none => rw [hx] at hd'; cases hd'
      | some d0 =>
        rw [hx] at hd'
        simp only [Option.map_some', Option.some_inj] at hd'
        rw [← hd']
        rfl
    · rw [if_neg hsk] at hf hd'
      dsimp only at hf hd'
      rcases p with _ | ⟨i, rest⟩
      · cases hf
        simp only [dataAtT, subtreeAtT, Option.map_some', NTree.data,
          Option.some_inj] at hd'
        rw [← hd']
        by_cases ht : ((P d).truthy
            || (bm || decide (P d = FR.branch)) && pm) = true
        · simp [ht, fateMatch, apply_ite ND.matched]
        · simp [eq_false_of_ne_true ht, fateMatch, apply_ite ND.matched,
            evalOne_matched, hm]
      · exact ihF _ i rest hf
          (by simpa [dataAtT, subtreeAtT, NTree.cs] using hd')

theorem evalT_subMatch_char (P : ND → FR) (hl : Option (ND → String))
    (bm lo ae : Bool) :
    ∀ t pm, resetLikeT t = true →
      ∀ p t', subtreeAtT (evalT P hl bm lo ae pm t).1 p = some t' →
        t'.data.subMatchCount = some (countMF t'.cs) := by
  apply NTree.myInduction
  intro d cs ih pm hr p t' ht'
  obtain ⟨hm, hs, hcs⟩ := resetLikeT_node hr
  have ihF : ∀ (pm2 : Bool) (i : Nat) (rest : Path),
      ((evalF P hl bm lo ae pm2 cs).1[i]? >>=
        fun c => subtreeAtT c rest) = some t' →
      t'.data.subMatchCount = some (countMF t'.cs) := by
    intro pm2 i rest h2
    rw [evalF_getElem] at h2
    cases hc : cs[i]? with
    | none => rw [hc] at h2; cases h2
    | some c =>
      rw [hc] at h2
      exact ih c (List.getElem?_mem hc) pm2
        (resetLikeF_mem hcs (List.getElem?_mem hc)) rest t' h2
  unfold evalT at ht'
  dsimp only at ht'
  by_cases hlo : (lo && !d.cnull) = true
  · rw [if_pos hlo] at ht'
    rcases p with _ | ⟨i, rest⟩
    · simp only [subtreeAtT, Option.some_inj] at ht'
      rw [← ht']
      have hcount := evalF_count P hl bm lo ae cs (mTruthy d.matched) hcs
      split <;> simp [NTree.data, NTree.cs, hcount]
    · exact ihF (mTruthy d.matched) i rest
        (by simpa [subtreeAtT, NTree.cs] using ht')
  · rw [if_neg hlo] at ht'
    by_cases hsk : (evalOne P hl d).1 = FR.skip
    · rw [if_pos hsk] at ht'
      rcases p with _ | ⟨i, rest⟩
      · simp only [subtreeAtT, Option.some_inj] at ht'
        rw [← ht']
        rw [markFalseT_data, markFalseT_cs]
        simp [NTree.data, NTree.cs, evalOne_subMatchCount, hs,
          countMF_markFalseF]
      · rw [subtreeAtT_markFalseT] at ht'
        cases hu : subtreeAtT (.node (evalOne P hl d).2 cs) (i :: rest) with
        | none => rw [hu] at ht'; cases ht'
        | some u =>
          rw [hu] at ht'
          simp only [Option.map_some', Option.some_inj] at ht'
          rw [← ht', markFalseT_data, markFalseT_cs]
          -- `u` is an untouched reset node: its `subMatchCount` is 0,
          -- and the marked subtree contains no truthy match
          have hu2 : resetLikeT u = true := by
            simp only [subtreeAtT, NTree.cs] at hu
            cases hc : cs[i]? with
            | none => rw [hc] at hu; cases hu
            | some c =>
              rw [hc] at hu
              exact resetLikeT_subtree rest c u
                (resetLikeF_mem hcs (List.getElem?_mem hc)) hu
          cases u with
          | node du csu =>
            obtain ⟨_, hsu, _⟩ := resetLikeT_node hu2
            simp [NTree.data, NTree.cs, hsu, countMF_markFalseF]
    · rw [if_neg hsk] at ht'
      dsimp only at ht'
      rcases p with _ | ⟨i, rest⟩
      · simp only [subtreeAtT, Option.some_inj] at ht'
        rw [← ht']
        have hcount := evalF_count P hl bm lo ae cs
          ((evalOne P hl d).1.truthy
            || (bm || decide ((evalOne P hl d).1 = FR.branch)) && pm) hcs
        split <;> (try split) <;> simp [NTree.data, NTree.cs, hcount]
      · exact ihF _ i rest
          (by simpa [subtreeAtT, NTree.cs] using ht')

/-- Fate of the node at path `p` of the whole tree (forest of the
root's children); the virtual root itself is never evaluated. -/
def fateF (P : ND → FR) (bm lo pm : Bool) (l : List NTree) :
    Path → Option Fate
  | [] => none
  | i :: rest => l[i]? >>= fun c => fateT P bm lo pm c rest

theorem applyFilterRun_topLevel (P : ND → FR) (hl : Option (ND → String))
    (bm : Bool) (opts : FilterOpts) (s : TState) :
    (applyFilterRun P hl bm opts s).1.topLevel
      = (evalF P hl bm (opts.leavesOnly && !bm) opts.autoExpand
          (mTruthy s.rootD.matched) (resetF s.topLevel)).1 := rfl

theorem applyFilterRun_snd (P : ND → FR) (hl : Option (ND → String))
    (bm : Bool) (opts : FilterOpts) (s : TState) :
    (applyFilterRun P hl bm opts s).2
      = some ((evalF P hl bm (opts.leavesOnly && !bm) opts.autoExpand
          (mTruthy s.rootD.matched) (resetF s.topLevel)).2.1) := rfl

theorem applyFilterRun_rootSubM (P : ND → FR) (hl : Option (ND → String))
    (bm : Bool) (opts : FilterOpts) (s : TState) :
    (applyFilterRun P hl bm opts s).1.rootD.subMatchCount
      = some ((evalF P hl bm (opts.leavesOnly && !bm) opts.autoExpand
          (mTruthy s.rootD.matched) (resetF s.topLevel)).2.1) := by
  unfold applyFilterRun
  dsimp only
  split <;> rfl

theorem mTruthy_fateMatch (res : FR) :
    mTruthy (fateMatch (.evaluated res false)) = res.truthy := by
  cases res <;> rfl

theorem resetND_frame (d : ND) :
    ((resetND d).expanded, (resetND d).filterAutoExpanded)
      = (d.expanded, d.filterAutoExpanded) := rfl

theorem subtreeAtT_resetT (p : Path) :
    ∀ t, subtreeAtT (resetT t) p = (subtreeAtT t p).map resetT := by
  induction p with
  | nil => intro t; simp [subtreeAtT]
  | cons i rest ih =>
    intro t
    simp only [subtreeAtT, resetT_cs, resetF_eq_map, List.getElem?_map]
    cases h : t.cs[i]? with
    | none => rfl
    | some c => simp [ih c]

theorem dataAtT_resetT (t : NTree) (p : Path) :
    dataAtT (resetT t) p = (dataAtT t p).map resetND := by
  simp only [dataAtT, subtreeAtT_resetT]
  cases h2 : subtreeAtT t p <;> simp [resetT_data]

theorem dataAtF_resetF (l : List NTree) (p : Path) :
    dataAtF (resetF l) p = (dataAtF l p).map resetND := by
  rcases p with _ | ⟨i, rest⟩
  · rfl
  · simp only [dataAtF, subtreeAtF, resetF_eq_map, List.getElem?_map]
    cases h : l[i]? with
    | none => rfl
    | some c =>
      show (subtreeAtT (resetT c) rest).map NTree.data
          = ((subtreeAtT c rest).map NTree.data).map resetND
      have := dataAtT_resetT c rest
      simp only [dataAtT] at this
      rw [this]

/-- Forest-level frame property over the reset input: with no direct
match anywhere, the evaluation pass changes no `expanded` /
`_filterAutoExpanded` flag of any node of the original forest. -/
theorem evalF_expanded_frame (P : ND → FR) (hl : Option (ND → String))
    (bm lo ae : Bool) (l : List NTree) (pm : Bool)
    (hnd : hasDirectF P bm lo pm (resetF l) = false) (p : Path) :
    (dataAtF (evalF P hl bm lo ae pm (resetF l)).1 p).map
        (fun d => (d.expanded, d.filterAutoExpanded))
      = (dataAtF l p).map
        (fun d => (d.expanded, d.filterAutoExpanded)) := by
  rcases p with _ | ⟨i, rest⟩
  · rfl
  · simp only [dataAtF, subtreeAtF, evalF_getElem]
    cases hc : l[i]? with
    | none =>
      rw [show (resetF l)[i]? = none from by
        rw [resetF_eq_map, List.getElem?_map, hc]; rfl]
      rfl
    | some c =>
      rw [show (resetF l)[i]? = some (resetT c) from by
        rw [resetF_eq_map, List.getElem?_map, hc]; rfl]
      show ((subtreeAtT (evalT P hl bm lo ae pm (resetT c)).1 rest).map
            NTree.data).map (fun d => (d.expanded, d.filterAutoExpanded))
          = ((subtreeAtT c rest).map NTree.data).map
            (fun d => (d.expanded, d.filterAutoExpanded))
      have hframe := evalT_expanded_frame P hl bm lo ae (resetT c) pm
        (hasDirectF_mem hnd (by
          rw [resetF_eq_map]
          exact List.mem_map_of_mem _ (List.getElem?_mem hc))) rest
      rw [dataAtT_resetT] at hframe
      simp only [dataAtT] at hframe
      rw [hframe]
      cases h2 : subtreeAtT c rest <;> simp [h2, resetND]

/-! ## C1 -/

/-- Sample tree for counterexamples: `A` with a single leaf child `B`
(`B.children === null`). -/
def sampleA : NTree :=
  .node { title := "A" } [.node { title := "B", cnull := true } []]

/-- Tree state holding just `sampleA`. -/
def sampleS : TState := { topLevel := [sampleA] }

/-- C1, counterexample — with `leavesOnly` set, the node `A` (which has
children) is never evaluated: its `match` stays deleted although the
predicate maps every node to `found`, and `A` was neither pruned by a
`"skip"` result nor matched by branch inheritance. So "every node not
pruned by skip and not matched by inheritance has `match == P(n)`" is
false as stated. -/
theorem C1_counterexample :
    fateT (fun _ => FR.found) false true false sampleA []
        = some .leavesSkipped ∧
    (fun (_ : ND) => FR.found) { title := "A" } = FR.found ∧
    (dataAtF (filterNodes (.cb (fun _ => FR.found))
        { leavesOnly := true } sampleS).1.topLevel [0]).map
      (fun d => mTruthy d.matched) = some false := by
  exact ⟨rfl, rfl, rfl⟩

/-- C1, amended — after the evaluation pass: a node *evaluated* with
`matchedByBranch = false` has truthy `match` exactly when its predicate
result was truthy (for boolean predicates: `match == P(n)`, with the
deleted property read as `false`); a node inside a `"skip"` subtree has
`match = false`; a node skipped by `leavesOnly` (the exception the
original claim omits) keeps `match` deleted regardless of `P(n)`; and
every node's `subMatchCount` equals the number of its strict
descendants whose `match` is `true` (the root included, whose
`subMatchCount` becomes the total match count). -/
theorem C1_match_and_subMatchCount (P : ND → FR)
    (hl : Option (ND → String)) (bm : Bool) (opts : FilterOpts)
    (s : TState) :
    (∀ p res, fateF P bm (opts.leavesOnly && !bm)
        (mTruthy s.rootD.matched) (resetF s.topLevel) p
          = some (.evaluated res false) →
      ∀ d', dataAtF (applyFilterRun P hl bm opts s).1.topLevel p
          = some d' → mTruthy d'.matched = res.truthy) ∧
    (∀ p d', fateF P bm (opts.leavesOnly && !bm)
        (mTruthy s.rootD.matched) (resetF s.topLevel) p = some .inSkip →
      dataAtF (applyFilterRun P hl bm opts s).1.topLevel p = some d' →
        d'.matched = some false) ∧
    (∀ p d', fateF P bm (opts.leavesOnly && !bm)
        (mTruthy s.rootD.matched) (resetF s.topLevel) p
          = some .leavesSkipped →
      dataAtF (applyFilterRun P hl bm opts s).1.topLevel p = some d' →
        d'.matched = none) ∧
    (∀ p t', subtreeAtF (applyFilterRun P hl bm opts s).1.topLevel p
        = some t' → t'.data.subMatchCount = some (countMF t'.cs)) ∧
    (applyFilterRun P hl bm opts s).1.rootD.subMatchCount
      = some (countMF (applyFilterRun P hl bm opts s).1.topLevel) := by
  have hkey : ∀ p f, fateF P bm (opts.leavesOnly && !bm)
      (mTruthy s.rootD.matched) (resetF s.topLevel) p = some f →
      ∀ d', dataAtF (applyFilterRun P hl bm opts s).1.topLevel p
        = some d' → d'.matched = fateMatch f := by
    intro p f hf d' hd'
    rw [applyFilterRun_topLevel] at hd'
    rcases p with _ | ⟨i, rest⟩
    · cases hf
    · simp only [fateF] at hf
      simp only [dataAtF, subtreeAtF, evalF_getElem] at hd'
      cases hc : (resetF s.topLevel)[i]? with
      | none => rw [hc] at hf; cases hf
      | some c =>
        rw [hc] at hf hd'
        exact evalT_matched_char P hl bm _ opts.autoExpand c _
          (resetLikeF_mem (resetLikeF_resetF s.topLevel)
            (List.getElem?_mem hc)) rest f hf d'
          (by simpa [dataAtT] using hd')
  refine ⟨?_, ?_, ?_, ?_, ?_⟩
  · intro p res hf d' hd'
    rw [hkey p _ hf d' hd', mTruthy_fateMatch]
  · intro p d' hf hd'
    exact hkey p _ hf d' hd'
  · intro p d' hf hd'
    exact hkey p _ hf d' hd'
  · intro p t' ht'
    rw [applyFilterRun_topLevel] at ht'
    rcases p with _ | ⟨i, rest⟩
    · cases ht'
    · simp only [subtreeAtF, evalF_getElem] at ht'
      cases hc : (resetF s.topLevel)[i]? with
      | none => rw [hc] at ht'; cases ht'
      | some c =>
        rw [hc] at ht'
        exact evalT_subMatch_char P hl bm _ opts.autoExpand c _
          (resetLikeF_mem (resetLikeF_resetF s.topLevel)
            (List.getElem?_mem hc)) rest t' ht'
  · rw [applyFilterRun_rootSubM, applyFilterRun_topLevel,
      evalF_count P hl bm _ opts.autoExpand (resetF s.topLevel) _
        (resetLikeF_resetF s.topLevel)]

/-- Witness for C1 on the sample tree: `B` is evaluated `found` and
indeed ends with a truthy `match`; `A`'s `subMatchCount` is its number
of matching strict descendants. -/
theorem C1_witness :
    (∀ d', dataAtF (applyFilterRun (fun _ => FR.found) none false {}
        sampleS).1.topLevel [0, 0] = some d' →
      mTruthy d'.matched = FR.truthy .found) ∧
    (∀ t', subtreeAtF (applyFilterRun (fun _ => FR.found) none false {}
        sampleS).1.topLevel [0] = some t' →
      t'.data.subMatchCount = some (countMF t'.cs)) := by
  have h := C1_match_and_subMatchCount (fun _ => FR.found) none false {}
    sampleS
  exact ⟨fun d' hd' => h.1 [0, 0] FR.found rfl d' hd',
    fun t' ht' => h.2.2.2.1 [0] t' ht'⟩

/-! ## C2 -/

/-- Predicate matching exactly the node titled `"A"`. -/
def onlyA (d : ND) : FR := if d.title = "A" then .found else .notFound

/-- Sample tree `A[B]` with plain (non-null, empty) children on `B`. -/
def sampleA2 : NTree := .node { title := "A" } [.node { title := "B" } []]

/-- Tree state holding just `sampleA2`. -/
def sampleS2 : TState := { topLevel := [sampleA2] }

/-- C2, counterexample — under `filterBranches` (branch mode), node `B`
is matched purely by inheritance (`matchedByBranch = true`, its own
predicate result is falsy), yet the returned global match counter is 2:
`count++` runs for inherited matches too, contradicting "without
incrementing the global match counter". -/
theorem C2_counterexample :
    fateT onlyA true false false sampleA2 [0]
        = some (.evaluated .notFound true) ∧
    (filterBranches (.cb onlyA) {} sampleS2).2 = some 2 := by
  exact ⟨rfl, rfl⟩

/-- C2, amended — an inherited (`matchedByBranch`) match *is* counted
by the global counter: the returned count is the number of all nodes
with truthy `match`, inherited ones included. What `matchedByBranch`
does suppress is auto-expansion: if no node of the tree receives a
direct (non-inherited) truthy result, then no `expanded` or
`_filterAutoExpanded` flag changes anywhere — auto-expansion is caused
only by direct matches. -/
theorem C2_branch_counts_but_no_autoexpand (P : ND → FR)
    (hl : Option (ND → String)) (bm : Bool) (opts : FilterOpts)
    (s : TState) :
    ((applyFilterRun P hl bm opts s).2
      = some (countMF (applyFilterRun P hl bm opts s).1.topLevel)) ∧
    (hasDirectF P bm (opts.leavesOnly && !bm) (mTruthy s.rootD.matched)
        (resetF s.topLevel) = false →
      (∀ p, (dataAtF (applyFilterRun P hl bm opts s).1.topLevel p).map
            (fun d => (d.expanded, d.filterAutoExpanded))
          = (dataAtF s.topLevel p).map
            (fun d => (d.expanded, d.filterAutoExpanded))) ∧
      (applyFilterRun P hl bm opts s).1.rootD.expanded
          = s.rootD.expanded ∧
      (applyFilterRun P hl bm opts s).1.rootD.filterAutoExpanded
          = s.rootD.filterAutoExpanded) := by
  constructor
  · rw [applyFilterRun_snd, applyFilterRun_topLevel,
      evalF_count P hl bm _ opts.autoExpand (resetF s.topLevel) _
        (resetLikeF_resetF s.topLevel)]
  · intro hnd
    refine ⟨?_, ?_⟩
    · intro p
      rw [applyFilterRun_topLevel]
      exact evalF_expanded_frame P hl bm (opts.leavesOnly && !bm)
        opts.autoExpand s.topLevel (mTruthy s.rootD.matched) hnd p
    · unfold applyFilterRun
      dsimp only
      rw [evalF_dir, hnd]
      simp

/-- Witness for C2 at a configuration where every match is inherited:
`branchMode` with a pre-matched root and a never-matching predicate —
the counter counts both inherited matches and nothing auto-expands. -/
theorem C2_witness :
    (applyFilterRun (fun _ => FR.notFound) none true
        { autoExpand := true }
        { rootD := { matched := some true }, topLevel := [sampleA2] }).2
      = some (countMF (applyFilterRun (fun _ => FR.notFound) none true
        { autoExpand := true }
        { rootD := { matched := some true },
          topLevel := [sampleA2] }).1.topLevel) ∧
    (dataAtF (applyFilterRun (fun _ => FR.notFound) none true
        { autoExpand := true }
        { rootD := { matched := some true },
          topLevel := [sampleA2] }).1.topLevel [0]).map
      (fun d => (d.expanded, d.filterAutoExpanded))
      = (dataAtF [sampleA2] [0]).map
        (fun d => (d.expanded, d.filterAutoExpanded)) := by
  have h := C2_branch_counts_but_no_autoexpand (fun _ => FR.notFound)
    none true { autoExpand := true }
    { rootD := { matched := some true }, topLevel := [sampleA2] }
  exact ⟨h.1, (h.2 rfl).1 [0]⟩

/-! ## C10 -/

/-- C10 — `_applyFilterImpl` (hence `filterNodes` and `filterBranches`)
returns, for a non-empty string filter or a callback, the number of
nodes whose `match` was set `true` during the pass (branch-inherited
matches included); for the empty string it returns no count
(`undefined`). -/
theorem C10_return_value (opts : FilterOpts) (s : TState) :
    (∀ bm, (applyFilterImpl (.text "") bm opts s).2 = none) ∧
    (∀ bm (str : String), str ≠ "" →
      (applyFilterImpl (.text str) bm opts s).2
        = some (countMF (applyFilterImpl (.text str) bm opts s).1.topLevel)) ∧
    (∀ bm (f : ND → FR),
      (applyFilterImpl (.cb f) bm opts s).2
        = some (countMF (applyFilterImpl (.cb f) bm opts s).1.topLevel)) := by
  refine ⟨fun bm => rfl, ?_, ?_⟩
  · intro bm str hstr
    simp only [applyFilterImpl, if_neg hstr]
    rw [applyFilterRun_snd, applyFilterRun_topLevel,
      evalF_count _ _ bm _ opts.autoExpand (resetF s.topLevel) _
        (resetLikeF_resetF s.topLevel)]
  · intro bm f
    simp only [applyFilterImpl]
    rw [applyFilterRun_snd, applyFilterRun_topLevel,
      evalF_count _ _ bm _ opts.autoExpand (resetF s.topLevel) _
        (resetLikeF_resetF s.topLevel)]

/-- Witness for C10: the spec's scenario tree `[A[B,C[D]],E]` with text
filter `"D"` returns the match count 1. -/
theorem C10_witness :
    (applyFilterImpl (.text "D") false {}
        { topLevel := [.node { title := "A" }
            [.node { title := "B" } [],
             .node { title := "C" } [.node { title := "D" } []]],
          .node { title := "E" } [] ] }).2
      = some (countMF (applyFilterImpl (.text "D") false {}
        { topLevel := [.node { title := "A" }
            [.node { title := "B" } [],
             .node { title := "C" } [.node { title := "D" } []]],
          .node { title := "E" } [] ] }).1.topLevel) ∧
    (applyFilterImpl (.text "D") false {}
        { topLevel := [.node { title := "A" }
            [.node { title := "B" } [],
             .node { title := "C" } [.node { title := "D" } []]],
          .node { title := "E" } [] ] }).2 = some 1 := by
  refine ⟨(C10_return_value {} _).2.1 false "D" (by decide), rfl⟩

/-- C6 — calling `_applyFilterImpl` with the empty string produces
exactly the `clearFilter()` end state (and the bare-`return`
undefined), for every prior state: the empty-string branch runs before
`filterMode`, `lastFilterArgs`, the class toggles or any pass. -/
theorem C6_emptyString_is_clearFilter (bm : Bool) (opts : FilterOpts)
    (s : TState) :
    applyFilterImpl (.text "") bm opts s = (clearFilter s, none) := by
  rfl

/-! ## The traversal engine: `Wunderbaum.visitRows` (top-down)

`visitRows(callback, {includeHidden})` starts at `root.children[0]` and
visits, in order: each top-level sibling, and below each visited node
its descendants via `node.visit`, subject to

* the filter check `checkFilter && !node.match && !node.subMatchCount`
  (`checkFilter = !includeHidden && this.enableFilter`), which prunes
  the node *and* its whole subtree, both at sibling level (`continue`)
  and inside the dive (`return "skip"`), and
* the expansion check: children are entered only when
  `node.children && node.children.length && (includeHidden ||
  node.expanded)` (equivalently, the inner `"skip"` when
  `!includeHidden && n.children && !n.expanded`).

The functions below produce the list of visited nodes as paths;
`i` is the absolute child index of the first element of `l` within its
parent. -/

/-- `checkFilter && !node.match && !node.subMatchCount`. -/
def filteredOut (cf : Bool) (d : ND) : Bool :=
  cf && !mTruthy d.matched && !sTruthy d.subMatchCount

/-- `node.children && node.children.length && (includeHidden ||
node.expanded)`. -/
def diveInto (ih : Bool) (t : NTree) : Bool :=
  !t.cs.isEmpty && (ih || t.data.expanded)

mutual

/-- Rows contributed by a node that passed the filter check: itself,
then (if dived into) its children's rows. -/
def visRowsT (ih cf : Bool) : NTree → List Path
  | .node d cs =>
    [] :: (if diveInto ih (.node d cs) then visRowsF ih cf 0 cs else [])

/-- Rows contributed by the forest `l` whose first element has child
index `i` in its parent. -/
def visRowsF (ih cf : Bool) (i : Nat) : List NTree → List Path
  | [] => []
  | t :: ts =>
    (if filteredOut cf t.data then []
     else (visRowsT ih cf t).map (i :: ·)) ++ visRowsF ih cf (i + 1) ts

end

/-! ## The viewport renderer: `Wunderbaum.renumber`

```
renumber(opts) {
  ...
  assert(start != null && end != null);
  this.root.children[1].expanded = true;      // stray debug line
  this.visitRows(function (node) {
    let prevIdx = node._rowIdx;
    if (prevIdx !== idx) { node._rowIdx = idx; modified = true; }
    if (idx < start || idx > end) {
      if (node._rowElem) { node._rowElem.remove(); node._rowElem = undefined; }
    } else if (!node._rowElem || prevIdx != idx) {
      node.render({ top: top });
    }
    idx++; top += height;
  });
  this.nodeListElement.style.height = "" + top + "px";
  return modified;
}
```

Note the stray `this.root.children[1].expanded = true`: it
unconditionally expands the root's *second* child before the pass, and
throws a `TypeError` (modelled as `none`) when the root has fewer than
two children. -/

/-- Per-visited-node update: assign the new row index; outside
`[start, end]` drop the row surface, inside it (re)create/keep it
(`render` creates `_rowElem` when missing and never removes it). -/
def updRow (start endIdx : Nat) (i : Nat) (d : ND) : ND :=
  let d1 := { d with rowIdx := i }
  if i < start || i > endIdx then { d1 with rowElem := false }
  else { d1 with rowElem := true }

/-- Replace the `n`-th element of a list (no-op when out of range). -/
def modListIdx (f : NTree → NTree) : Nat → List NTree → List NTree
  | _, [] => []
  | 0, t :: ts => f t :: ts
  | n + 1, t :: ts => t :: modListIdx f n ts

/-- The stray `this.root.children[1].expanded = true`. -/
def forceExpandSecond (roots : List NTree) : List NTree :=
  modListIdx (fun t => .node { t.data with expanded := true } t.cs) 1 roots

mutual

/-- The renumber walk over one visited node: assign `idx`, update the
surface, recurse into the children when the traversal does; returns
the updated subtree, the next row index, and the `modified` flag. -/
def renumWalkT (st en : Nat) (ef : Bool) (idx : Nat) :
    NTree → NTree × Nat × Bool
  | .node d cs =>
    let modified := d.rowIdx ≠ idx
    let d1 := updRow st en idx d
    if diveInto false (.node d cs) then
      let r := renumWalkF st en ef (idx + 1) cs
      (.node d1 r.1, r.2.1, modified || r.2.2)
    else
      (.node d1 cs, idx + 1, modified)

/-- The renumber walk over a forest (sibling loop with the filter
check: filtered-out nodes are left untouched and contribute nothing). -/
def renumWalkF (st en : Nat) (ef : Bool) (idx : Nat) :
    List NTree → List NTree × Nat × Bool
  | [] => ([], idx, false)
  | t :: ts =>
    if filteredOut ef t.data then
      let r := renumWalkF st en ef idx ts
      (t :: r.1, r.2.1, r.2.2)
    else
      let r1 := renumWalkT st en ef idx t
      let r2 := renumWalkF st en ef r1.2.1 ts
      (r1.1 :: r2.1, r2.2.1, r1.2.2 || r2.2.2)

end

/-- `Wunderbaum.renumber({startIdx, endIdx})` on a tree whose root
children are `roots`, with `enableFilter = ef`. Returns `none` when
the stray debug line crashes (fewer than two root children), otherwise
the updated forest, the returned `modified` flag, and the pixel height
assigned to the scroll container (`top` = 16 per visited row). -/
def renumber (st en : Nat) (ef : Bool) (roots : List NTree) :
    Option (List NTree × Bool × Nat) :=
  match roots[1]? with
  | none => none
  | some _ =>
    let roots1 := forceExpandSecond roots
    let r := renumWalkF st en ef 0 roots1
    some (r.1, r.2.2, 16 * r.2.1)

/-! ## Lemmas about the traversal lists and the renumber walk -/

/-- Shift the leading child index of a path by one. -/
def shiftP : Path → Path
  | [] => []
  | j :: t => (j + 1) :: t

theorem visRowsF_shift (ih cf : Bool) :
    ∀ (l : List NTree) (i : Nat),
      visRowsF ih cf (i + 1) l = (visRowsF ih cf i l).map shiftP := by
  intro l
  induction l with
  | nil => intro i; rfl
  | cons t ts ih2 =>
    intro i
    simp only [visRowsF, List.map_append]
    rw [ih2 (i + 1)]
    congr 1
    split
    · rfl
    · rw [List.map_map]
      apply List.map_congr_left
      intro q hq
      rfl

theorem visRowsF_ne_nil (ih cf : Bool) :
    ∀ (l : List NTree) (i : Nat) (p : Path),
      p ∈ visRowsF ih cf i l → p ≠ [] := by
  intro l
  induction l with
  | nil => intro i p hp; cases hp
  | cons t ts ih2 =>
    intro i p hp
    simp only [visRowsF, List.mem_append] at hp
    cases hp with
    | inl h =>
      split at h
      · cases h
      · obtain ⟨q, _, hq⟩ := List.mem_map.mp h
        rw [← hq]
        simp
    | inr h => exact ih2 (i + 1) p h

theorem visRowsF_length_shift (ih cf : Bool) (l : List NTree) (i : Nat) :
    (visRowsF ih cf (i + 1) l).length = (visRowsF ih cf i l).length := by
  rw [visRowsF_shift]
  simp

/-- The row counter after the walk advances by the number of visited
rows. -/
theorem renumWalkT_count (st en : Nat) (ef : Bool) :
    ∀ t idx, (renumWalkT st en ef idx t).2.1
      = idx + (visRowsT false ef t).length := by
  apply NTree.myInduction
  intro d cs ih idx
  have ihF : ∀ (l : List NTree), (∀ c ∈ l, ∀ idx2,
      (renumWalkT st en ef idx2 c).2.1
        = idx2 + (visRowsT false ef c).length) →
      ∀ idx2, (renumWalkF st en ef idx2 l).2.1
        = idx2 + (visRowsF false ef 0 l).length := by
    intro l
    induction l with
    | nil => intro _ idx2; rfl
    | cons c cs2 ihl =>
      intro hmem idx2
      simp only [renumWalkF, visRowsF]
      split
      · rw [ihl (fun x hx => hmem x (by simp [hx])) idx2]
        simp only [List.nil_append, List.length_append]
        rw [show visRowsF false ef 1 cs2
            = visRowsF false ef (0 + 1) cs2 from rfl,
          visRowsF_length_shift]
      · dsimp only
        rw [ihl (fun x hx => hmem x (by simp [hx])),
          hmem c (by simp) idx2]
        simp only [List.length_append, List.length_map]
        rw [show visRowsF false ef 1 cs2
            = visRowsF false ef (0 + 1) cs2 from rfl,
          visRowsF_length_shift]
        omega
  show (renumWalkT st en ef idx (.node d cs)).2.1 = _
  unfold renumWalkT
  dsimp only
  split
  · rename_i hdive
    rw [ihF cs ih (idx + 1)]
    simp only [visRowsT, hdive, if_true, List.length_cons]
    omega
  · rename_i hdive
    simp only [visRowsT]
    rw [if_neg (by simpa using hdive)]
    simp

theorem renumWalkF_count (st en : Nat) (ef : Bool) (l : List NTree) :
    ∀ idx, (renumWalkF st en ef idx l).2.1
      = idx + (visRowsF false ef 0 l).length := by
  induction l with
  | nil => intro idx; rfl
  | cons c cs2 ihl =>
    intro idx
    simp only [renumWalkF, visRowsF]
    split
    · rw [ihl idx]
      simp only [List.nil_append]
      rw [show visRowsF false ef 1 cs2
          = visRowsF false ef (0 + 1) cs2 from rfl,
        visRowsF_length_shift]
    · dsimp only
      rw [ihl, renumWalkT_count]
      simp only [List.length_append, List.length_map]
      rw [show visRowsF false ef 1 cs2
          = visRowsF false ef (0 + 1) cs2 from rfl,
        visRowsF_length_shift]
      omega

theorem dataAtT_node_cons (d : ND) (cs : List NTree) (j : Nat)
    (t : Path) : dataAtT (.node d cs) (j :: t) = dataAtF cs (j :: t) :=
  rfl

theorem dataAtF_cons_zero (x : NTree) (xs : List NTree) (t : Path) :
    dataAtF (x :: xs) (0 :: t) = dataAtT x t := by
  simp [dataAtF, subtreeAtF, dataAtT]

theorem dataAtF_cons_succ (x : NTree) (xs : List NTree) (j : Nat)
    (t : Path) : dataAtF (x :: xs) ((j + 1) :: t) = dataAtF xs (j :: t) := by
  simp [dataAtF, subtreeAtF]

/-- The `k`-th visited row of a subtree ends with exactly the `updRow`
update at row index `idx + k`; every other field and every unvisited
node is untouched elsewhere. -/
theorem renumWalkT_data (st en : Nat) (ef : Bool) :
    ∀ t idx k p, (visRowsT false ef t)[k]? = some p →
      dataAtT (renumWalkT st en ef idx t).1 p
        = (dataAtT t p).map (updRow st en (idx + k)) := by
  apply NTree.myInduction
  intro d cs ihmem idx k p hk
  have ihF : ∀ (l : List NTree), (∀ c ∈ l, ∀ idx2 k2 p2,
        (visRowsT false ef c)[k2]? = some p2 →
        dataAtT (renumWalkT st en ef idx2 c).1 p2
          = (dataAtT c p2).map (updRow st en (idx2 + k2))) →
      ∀ idx2 k2 p2, (visRowsF false ef 0 l)[k2]? = some p2 →
        dataAtF (renumWalkF st en ef idx2 l).1 p2
          = (dataAtF l p2).map (updRow st en (idx2 + k2)) := by
    intro l
    induction l with
    | nil => intro _ idx2 k2 p2 h2; cases h2
    | cons c cs2 ihl =>
      intro hmem idx2 k2 p2 h2
      simp only [visRowsF] at h2
      by_cases hfo : filteredOut ef c.data = true
      · rw [if_pos hfo] at h2
        simp only [List.nil_append] at h2
        rw [show visRowsF false ef 1 cs2
            = visRowsF false ef (0 + 1) cs2 from rfl,
          visRowsF_shift, List.getElem?_map] at h2
        cases hq : (visRowsF false ef 0 cs2)[k2]? with
        | none => rw [hq] at h2; cases h2
        | some q =>
          rw [hq] at h2
          have hqn : q ≠ [] := visRowsF_ne_nil false ef cs2 0 q
            (List.getElem?_mem hq)
          cases q with
          | nil => exact absurd rfl hqn
          | cons j tail =>
            simp only [Option.map_some', Option.some_inj] at h2
            rw [← h2]
            show dataAtF ((renumWalkF st en ef idx2 (c :: cs2)).1)
                ((j + 1) :: tail) = _
            simp only [renumWalkF, if_pos hfo]
            rw [shiftP]
            rw [dataAtF_cons_succ, dataAtF_cons_succ]
            exact ihl (fun x hx => hmem x (by simp [hx])) idx2 k2
              (j :: tail) hq
      · rw [if_neg hfo] at h2
        by_cases hlt : k2 < ((visRowsT false ef c).map
            (fun q => 0 :: q)).length
        · rw [List.getElem?_append, if_pos hlt, List.getElem?_map] at h2
          cases hq : (visRowsT false ef c)[k2]? with
          | none => rw [hq] at h2; cases h2
          | some q =>
            rw [hq] at h2
            simp only [Option.map_some', Option.some_inj] at h2
            rw [← h2]
            show dataAtF ((renumWalkF st en ef idx2 (c :: cs2)).1)
                (0 :: q) = _
            simp only [renumWalkF, if_neg hfo]
            rw [dataAtF_cons_zero, dataAtF_cons_zero]
            exact hmem c (by simp) idx2 k2 q hq
        · push_neg at hlt
          rw [List.getElem?_append, if_neg (by omega)] at h2
          rw [show visRowsF false ef 1 cs2
              = visRowsF false ef (0 + 1) cs2 from rfl,
            visRowsF_shift, List.getElem?_map] at h2
          cases hq : (visRowsF false ef 0
              cs2)[k2 - ((visRowsT false ef c).map
                (fun q => 0 :: q)).length]? with
          | none => rw [hq] at h2; cases h2
          | some q =>
            rw [hq] at h2
            have hqn : q ≠ [] := visRowsF_ne_nil false ef cs2 0 q
              (List.getElem?_mem hq)
            cases q with
            | nil => exact absurd rfl hqn
            | cons j tail =>
              simp only [Option.map_some', Option.some_inj] at h2
              rw [← h2]
              show dataAtF ((renumWalkF st en ef idx2 (c :: cs2)).1)
                  ((j + 1) :: tail) = _
              simp only [renumWalkF, if_neg hfo]
              rw [shiftP]
              rw [dataAtF_cons_succ, dataAtF_cons_succ]
              have := ihl (fun x hx => hmem x (by simp [hx]))
                (renumWalkT st en ef idx2 c).2.1
                (k2 - ((visRowsT false ef c).map (fun q => 0 :: q)).length)
                (j :: tail) hq
              rw [this, renumWalkT_count]
              simp only [List.length_map] at hlt
              have harg : idx2 + (visRowsT false ef c).length
                  + (k2 - ((visRowsT false ef c).map
                      (fun q => 0 :: q)).length)
                  = idx2 + k2 := by
                simp only [List.length_map]
                omega
              rw [harg]
  simp only [visRowsT] at hk
  cases k with
  | zero =>
    simp only [List.getElem?_cons_zero, Option.some_inj] at hk
    rw [← hk]
    show dataAtT (renumWalkT st en ef idx (.node d cs)).1 [] = _
    unfold renumWalkT
    dsimp only
    split <;>
      simp [dataAtT, subtreeAtT, NTree.data]
  | succ k2 =>
    simp only [List.getElem?_cons_succ] at hk
    by_cases hdive : diveInto false (.node d cs) = true
    · rw [if_pos hdive] at hk
      have hpn : p ≠ [] := visRowsF_ne_nil false ef cs 0 p
        (List.getElem?_mem hk)
      cases p with
      | nil => exact absurd rfl hpn
      | cons j tail =>
        show dataAtT (renumWalkT st en ef idx (.node d cs)).1
            (j :: tail) = _
        unfold renumWalkT
        dsimp only
        rw [if_pos hdive]
        dsimp only
        rw [dataAtT_node_cons, dataAtT_node_cons]
        have := ihF cs ihmem (idx + 1) k2 (j :: tail) hk
        rw [this]
        have harg : idx + 1 + k2 = idx + (k2 + 1) := by omega
        rw [harg]
    · rw [if_neg hdive] at hk
      cases hk
theorem renumWalkF_data (st en : Nat) (ef : Bool) (l : List NTree) :
    ∀ idx k p, (visRowsF false ef 0 l)[k]? = some p →
      dataAtF (renumWalkF st en ef idx l).1 p
        = (dataAtF l p).map (updRow st en (idx + k)) := by
  induction l with
  | nil => intro idx k p h2; cases h2
  | cons c cs2 ihl =>
    intro idx k p h2
    simp only [visRowsF] at h2
    by_cases hfo : filteredOut ef c.data = true
    · rw [if_pos hfo] at h2
      simp only [List.nil_append] at h2
      rw [show visRowsF false ef 1 cs2
          = visRowsF false ef (0 + 1) cs2 from rfl,
        visRowsF_shift, List.getElem?_map] at h2
      cases hq : (visRowsF false ef 0 cs2)[k]? with
      | none => rw [hq] at h2; cases h2
      | some q =>
        rw [hq] at h2
        have hqn : q ≠ [] := visRowsF_ne_nil false ef cs2 0 q
          (List.getElem?_mem hq)
        cases q with
        | nil => exact absurd rfl hqn
        | cons j tail =>
          simp only [Option.map_some', Option.some_inj] at h2
          rw [← h2]
          show dataAtF ((renumWalkF st en ef idx (c :: cs2)).1)
              ((j + 1) :: tail) = _
          simp only [renumWalkF, if_pos hfo]
          rw [shiftP]
          rw [dataAtF_cons_succ, dataAtF_cons_succ]
          exact ihl idx k (j :: tail) hq
    · rw [if_neg hfo] at h2
      by_cases hlt : k < ((visRowsT false ef c).map
          (fun q => 0 :: q)).length
      · rw [List.getElem?_append, if_pos hlt, List.getElem?_map] at h2
        cases hq : (visRowsT false ef c)[k]? with
        | none => rw [hq] at h2; cases h2
        | some q =>
          rw [hq] at h2
          simp only [Option.map_some', Option.some_inj] at h2
          rw [← h2]
          show dataAtF ((renumWalkF st en ef idx (c :: cs2)).1)
              (0 :: q) = _
          simp only [renumWalkF, if_neg hfo]
          rw [dataAtF_cons_zero, dataAtF_cons_zero]
          exact renumWalkT_data st en ef c idx k q hq
      · push_neg at hlt
        rw [List.getElem?_append, if_neg (by omega)] at h2
        rw [show visRowsF false ef 1 cs2
            = visRowsF false ef (0 + 1) cs2 from rfl,
          visRowsF_shift, List.getElem?_map] at h2
        cases hq : (visRowsF false ef 0
            cs2)[k - ((visRowsT false ef c).map
              (fun q => 0 :: q)).length]? with
        | none => rw [hq] at h2; cases h2
        | some q =>
          rw [hq] at h2
          have hqn : q ≠ [] := visRowsF_ne_nil false ef cs2 0 q
            (List.getElem?_mem hq)
          cases q with
          | nil => exact absurd rfl hqn
          | cons j tail =>
            simp only [Option.map_some', Option.some_inj] at h2
            rw [← h2]
            show dataAtF ((renumWalkF st en ef idx (c :: cs2)).1)
                ((j + 1) :: tail) = _
            simp only [renumWalkF, if_neg hfo]
            rw [shiftP]
            rw [dataAtF_cons_succ, dataAtF_cons_succ]
            have := ihl (renumWalkT st en ef idx c).2.1
              (k - ((visRowsT false ef c).map (fun q => 0 :: q)).length)
              (j :: tail) hq
            rw [this, renumWalkT_count]
            simp only [List.length_map] at hlt
            have harg : idx + (visRowsT false ef c).length
                + (k - ((visRowsT false ef c).map
                    (fun q => 0 :: q)).length)
                = idx + k := by
              simp only [List.length_map]
              omega
            rw [harg]

/-- The renumber walk leaves every node of a forest that the traversal
does not visit untouched. -/
theorem renumWalkF_frame_of (st en : Nat) (ef : Bool) :
    ∀ (l : List NTree),
      (∀ c ∈ l, ∀ (idx2 : Nat) (q2 : Path), q2 ∉ visRowsT false ef c →
        dataAtT (renumWalkT st en ef idx2 c).1 q2 = dataAtT c q2) →
      ∀ (idx2 : Nat) (p : Path), p ∉ visRowsF false ef 0 l →
        dataAtF (renumWalkF st en ef idx2 l).1 p = dataAtF l p := by
  intro l
  induction l with
  | nil => intro _ idx2 p _; rfl
  | cons c cs2 ihl =>
    intro hmem idx2 p hp
    simp only [visRowsF, List.mem_append, not_or] at hp
    simp only [renumWalkF]
    split
    · dsimp only
      cases p with
      | nil => rfl
      | cons k rest =>
        cases k with
        | zero => rw [dataAtF_cons_zero, dataAtF_cons_zero]
        | succ k2 =>
          rw [dataAtF_cons_succ, dataAtF_cons_succ]
          apply ihl (fun x hx => hmem x (by simp [hx]))
          intro hmem2
          apply hp.2
          rw [show visRowsF false ef 1 cs2
              = visRowsF false ef (0 + 1) cs2 from rfl, visRowsF_shift]
          exact List.mem_map.mpr ⟨k2 :: rest, hmem2, rfl⟩
    · rename_i hflt
      dsimp only
      cases p with
      | nil => rfl
      | cons k rest =>
        cases k with
        | zero =>
          rw [dataAtF_cons_zero, dataAtF_cons_zero]
          apply hmem c (by simp) idx2
          intro hmem2
          apply hp.1
          rw [if_neg hflt]
          exact List.mem_map.mpr ⟨rest, hmem2, rfl⟩
        | succ k2 =>
          rw [dataAtF_cons_succ, dataAtF_cons_succ]
          apply ihl (fun x hx => hmem x (by simp [hx]))
          intro hmem2
          apply hp.2
          rw [show visRowsF false ef 1 cs2
              = visRowsF false ef (0 + 1) cs2 from rfl, visRowsF_shift]
          exact List.mem_map.mpr ⟨k2 :: rest, hmem2, rfl⟩

/-- The renumber walk leaves every node of a subtree that the
traversal does not visit untouched. -/
theorem renumWalkT_frame (st en : Nat) (ef : Bool) :
    ∀ t idx q, q ∉ visRowsT false ef t →
      dataAtT (renumWalkT st en ef idx t).1 q = dataAtT t q := by
  apply NTree.myInduction
  intro d cs ih idx q hq
  simp only [visRowsT, List.mem_cons, not_or] at hq
  cases q with
  | nil => exact absurd rfl hq.1
  | cons j rest =>
    show dataAtT (renumWalkT st en ef idx (.node d cs)).1 (j :: rest)
        = dataAtT (.node d cs) (j :: rest)
    unfold renumWalkT
    dsimp only
    split
    · rename_i hdive
      rw [dataAtT_node_cons, dataAtT_node_cons]
      apply renumWalkF_frame_of st en ef cs ih (idx + 1)
      intro hmem2
      apply hq.2
      rw [if_pos hdive]
      exact hmem2
    · rw [dataAtT_node_cons, dataAtT_node_cons]

/-- Forest form of the frame property of the renumber walk. -/
theorem renumWalkF_frame (st en : Nat) (ef : Bool) (l : List NTree)
    (idx : Nat) (p : Path) (hp : p ∉ visRowsF false ef 0 l) :
    dataAtF (renumWalkF st en ef idx l).1 p = dataAtF l p :=
  renumWalkF_frame_of st en ef l
    (fun c _ => renumWalkT_frame st en ef c) idx p hp

/-- The stray forced expansion touches only the `expanded` flag: the
`rowIdx`/`rowElem` projection of every node is unchanged. -/
theorem forceExpandSecond_rowData (roots : List NTree) :
    ∀ p, (dataAtF (forceExpandSecond roots) p).map
        (fun d => (d.rowIdx, d.rowElem))
      = (dataAtF roots p).map (fun d => (d.rowIdx, d.rowElem)) := by
  intro p
  cases roots with
  | nil => rfl
  | cons a ts =>
    cases ts with
    | nil => rfl
    | cons b ts2 =>
      show (dataAtF (a :: (.node { b.data with expanded := true }
          b.cs) :: ts2) p).map (fun d => (d.rowIdx, d.rowElem))
        = (dataAtF (a :: b :: ts2) p).map (fun d => (d.rowIdx, d.rowElem))
      cases p with
      | nil => rfl
      | cons k rest =>
        match k with
        | 0 => rw [dataAtF_cons_zero, dataAtF_cons_zero]
        | 1 =>
          rw [show (1 : Nat) = 0 + 1 from rfl, dataAtF_cons_succ,
            dataAtF_cons_succ, dataAtF_cons_zero, dataAtF_cons_zero]
          cases b with
          | node db csb =>
            cases rest with
            | nil => rfl
            | cons j r2 =>
              rw [show (NTree.node db csb).data = db from rfl,
                show (NTree.node db csb).cs = csb from rfl,
                dataAtT_node_cons, dataAtT_node_cons]
        | (k2 + 2) =>
          rw [dataAtF_cons_succ, dataAtF_cons_succ, dataAtF_cons_succ,
            dataAtF_cons_succ]

/-! ## C3 and C9 -/

/-- A hidden node with a stale row surface: child of a collapsed
parent, with a leftover `_rowElem` and `_rowIdx = 50`. -/
def staleD : NTree := .node { title := "D", rowIdx := 50, rowElem := true } []

/-- Collapsed parent of `staleD`. -/
def staleA : NTree := .node { title := "A" } [staleD]

/-- Second top-level node (collapsed; the stray line will expand it). -/
def staleB : NTree := .node { title := "B" } []

/-- C3, counterexample — after `renumber({startIdx: 0, endIdx: 10})`,
the node `D` (hidden under the collapsed `A`, hence not visited by the
pass) still owns a row surface while its `rowIndex` 50 lies outside
`[0, 10]`: the claimed equivalence "surface ⇔ rowIndex within range"
fails for nodes the traversal does not reach. -/
theorem C3_counterexample :
    (renumber 0 10 false [staleA, staleB]).map
      (fun r => (dataAtF r.1 [0, 0]).map (fun d => (d.rowElem, d.rowIdx)))
      = some (some (true, 50)) ∧
    visRowsF false false 0 (forceExpandSecond [staleA, staleB])
      = [[0], [1]] ∧
    ¬((50 : Nat) ≤ 10) := by
  refine ⟨rfl, rfl, by decide⟩

/-- C3, amended — for every node the renumber pass *visits* (the rows
of the visible traversal, computed after the stray forced expansion of
the second root child), the new `rowIndex` is its position in the
visible order and the row surface exists iff that index lies within
`[startIdx, endIdx]`; every node the traversal does not reach keeps its
previous surface and `rowIndex` (relative to the original tree: the
stray expansion touches only the `expanded` flag). The scroll
container's content extent is set to `visibleRowCount × 16` px
regardless of the requested range. Requires at least two top-level
children (otherwise the stray debug line makes `renumber` throw). -/
theorem C3_renumber_range (st en : Nat) (ef : Bool) (roots : List NTree)
    (r : List NTree × Bool × Nat) (h : renumber st en ef roots = some r) :
    (∀ k p, (visRowsF false ef 0 (forceExpandSecond roots))[k]? = some p →
      (dataAtF r.1 p).map (fun d => (d.rowIdx, d.rowElem))
        = (dataAtF (forceExpandSecond roots) p).map
            (fun _ => (k, decide (st ≤ k ∧ k ≤ en)))) ∧
    (∀ p, p ∉ visRowsF false ef 0 (forceExpandSecond roots) →
      (dataAtF r.1 p).map (fun d => (d.rowIdx, d.rowElem))
        = (dataAtF roots p).map (fun d => (d.rowIdx, d.rowElem))) ∧
    r.2.2 = 16 * (visRowsF false ef 0 (forceExpandSecond roots)).length := by
  unfold renumber at h
  cases h1 : roots[1]? with
  | none => rw [h1] at h; cases h
  | some w =>
    rw [h1] at h
    simp only [Option.some_inj] at h
    refine ⟨?_, ?_, ?_⟩
    · intro k p hk
      rw [← h]
      dsimp only
      rw [renumWalkF_data st en ef (forceExpandSecond roots) 0 k p hk]
      cases hd : dataAtF (forceExpandSecond roots) p with
      | none => rfl
      | some d0 =>
        simp only [Option.map_some', Option.some_inj, updRow]
        split
        · rename_i hc
          simp only [Bool.or_eq_true, decide_eq_true_eq] at hc
          have : ¬(st ≤ 0 + k ∧ 0 + k ≤ en) := by omega
          simp only [Nat.zero_add] at *
          simp [decide_eq_false this]
        · rename_i hc
          simp only [Bool.or_eq_true, decide_eq_true_eq, not_or] at hc
          have : st ≤ 0 + k ∧ 0 + k ≤ en := by omega
          simp only [Nat.zero_add] at *
          simp [decide_eq_true_eq, this]
    · intro p hp
      rw [← h]
      dsimp only
      rw [renumWalkF_frame st en ef (forceExpandSecond roots) 0 p hp]
      exact forceExpandSecond_rowData roots p
    · rw [← h]
      dsimp only
      rw [renumWalkF_count]
      omega

/-- The spec's demo tree (`A[B, C[D]]`, all on the expanded path). -/
def demoA : NTree := .node { title := "A", expanded := true }
  [.node { title := "B" } [],
   .node { title := "C", expanded := true } [.node { title := "D" } []]]

/-- Second top-level demo node. -/
def demoE : NTree := .node { title := "E" } []

/-- The result of `renumber({startIdx: 0, endIdx: 1})` on the demo
tree. -/
def demoRenum : List NTree × Bool × Nat :=
  (renumber 0 1 false [demoA, demoE]).getD ([], false, 0)

/-- The result of `renumber({startIdx: 0, endIdx: 10})` on the stale
tree. -/
def staleRenum : List NTree × Bool × Nat :=
  (renumber 0 10 false [staleA, staleB]).getD ([], false, 0)

/-- Witness for C3: on the demo tree, row 2 (node `C`) falls outside
the range `[0, 1]` — it gets `rowIdx = 2` and no surface — and the
extent is 16 px times the five visible rows; on the stale tree, the
unvisited node `D` (path `[0, 0]`, hidden under the collapsed `A`)
keeps its previous `rowIdx`/`rowElem`. -/
theorem C3_witness :
    (dataAtF demoRenum.1 [0, 1]).map (fun d => (d.rowIdx, d.rowElem))
      = (dataAtF (forceExpandSecond [demoA, demoE]) [0, 1]).map
          (fun _ => (2, decide (0 ≤ 2 ∧ 2 ≤ 1))) ∧
    demoRenum.2.2
      = 16 * (visRowsF false false 0 (forceExpandSecond [demoA, demoE])).length ∧
    (dataAtF staleRenum.1 [0, 0]).map (fun d => (d.rowIdx, d.rowElem))
      = (dataAtF [staleA, staleB] [0, 0]).map
          (fun d => (d.rowIdx, d.rowElem)) := by
  have h := C3_renumber_range 0 1 false [demoA, demoE] demoRenum (by rfl)
  have h2 := C3_renumber_range 0 10 false [staleA, staleB] staleRenum
    (by rfl)
  exact ⟨h.1 2 [0, 1] (by rfl), h.2.2, h2.2.1 [0, 0] (by decide)⟩

/-- First top-level node for C9. -/
def c9A : NTree := .node { title := "A" } []

/-- Second top-level node for C9, collapsed before the call. -/
def c9B : NTree := .node { title := "B" } []

/-- C9 — `renumber` does *not* leave `expanded` flags unchanged: the
stray line `this.root.children[1].expanded = true` unconditionally
expands the root's second child (here `B`, collapsed before the call),
and when the root has fewer than two children the same line throws a
`TypeError` (modelled as `none`), so `renumber` never completes. -/
theorem C9_renumber_mutates_expanded :
    (dataAtF [c9A, c9B] [1]).map ND.expanded = some false ∧
    (renumber 0 10 false [c9A, c9B]).map
      (fun r => (dataAtF r.1 [1]).map ND.expanded) = some (some true) ∧
    renumber 0 10 false [c9A] = none := by
  exact ⟨rfl, rfl, rfl⟩

/-! ## The bottom-up traversal: `Wunderbaum._visitRowsUp`

```
_visitRowsUp(callback, opts) {
  var ... node = opts.start || this.root.children[0];
  while (true) {
    parent = node.parent;
    children = parent.children;
    if (children[0] === node) {
      node = parent;
      if (!node.parent) break;      // first node of the tree: no visit
      children = parent.children;
    } else {
      idx = children.indexOf(node);
      node = children[idx - 1];
      while ((includeHidden || node.expanded) && node.children
             && node.children.length) {
        children = node.children; parent = node;
        node = children[children.length - 1];
      }
    }
    if (!includeHidden && !node.isVisible()) continue;
    if (callback(node) === false) return false;
    break;                          // exactly one node is visited
  }
  return true;
}
```

One call visits exactly one node: the predecessor of `start` in the
top-down order, skipping (via `continue`) candidates that are not
visible. Nodes are identified by their path. -/

/-- The inner descend loop: from a node, follow last children while
`(includeHidden || node.expanded) && node.children &&
node.children.length`; returns the relative path of the deepest node
reached. -/
def descendLast (ih : Bool) : NTree → Path
  | .node d cs =>
    if diveInto ih (.node d cs) then
      match h2 : cs.getLast? with
      | none => []
      | some c => (cs.length - 1) :: descendLast ih c
    else []
termination_by t => sizeOf t
decreasing_by
  have hm := List.mem_of_mem_getLast? h2
  exact NTree.sizeOf_lt_of_mem hm

/-- One candidate step of `_visitRowsUp` (before the visibility check):
first sibling ⇒ the parent (`none` when the parent is the invisible
root: `break` without a visit); otherwise the previous sibling's
deepest last descendant. -/
def upStep (ih : Bool) (roots : List NTree) (p : Path) : Option Path :=
  match p.getLast? with
  | none => none
  | some 0 => if p.dropLast = [] then none else some p.dropLast
  | some (j + 1) =>
    match subtreeAtF roots (p.dropLast ++ [j]) with
    | none => none
    | some t => some (p.dropLast ++ [j] ++ descendLast ih t)

/-- All ancestors of the node at the path are expanded (the first path
component's node is the node itself at depth 1 or an ancestor below the
root; the invisible root does not count). -/
def ancExpandedT (t : NTree) : Path → Bool
  | [] => true
  | [_] => true
  | j :: rest =>
    match t.cs[j]? with
    | none => false
    | some c => c.data.expanded && ancExpandedT c rest

/-- `ancExpandedT` over the root forest. -/
def ancExpandedF (l : List NTree) : Path → Bool
  | [] => true
  | [_] => true
  | i :: rest =>
    match l[i]? with
    | none => false
    | some t => t.data.expanded && ancExpandedT t rest

/-- Modelled from the spec: `WunderbaumNode.isVisible` is called by
`_visitRowsUp` but is not implemented anywhere under `src/`. Per §4.1's
visibility rules, a node is part of the visible order iff all its
ancestors are expanded and, when a filter is active, it is a direct
match or has a non-zero `subMatchCount` (the same condition the
top-down traversal prunes by). -/
def isVisible (ef : Bool) (l : List NTree) (p : Path) : Bool :=
  match dataAtF l p with
  | none => false
  | some d => ancExpandedF l p && !filteredOut ef d

/-- One full `_visitRowsUp` call starting at `p`: candidate steps with
the `continue`-skip of invisible candidates (`!includeHidden &&
!node.isVisible()`); the fuel bounds the number of skips (any bound
larger than the node count is exact). -/
def stepUp (ih ef : Bool) (roots : List NTree) : Nat → Path → Option Path
  | 0, _ => none
  | fuel + 1, p =>
    match upStep ih roots p with
    | none => none
    | some q =>
      if ih || isVisible ef roots q then some q
      else stepUp ih ef roots fuel q

/-- Iterating `visitRows(callback, {reverse: true, start})` node by
node: the start node followed by repeated single-step predecessors
until the walk reports no predecessor. -/
def iterUp (g : Path → Option Path) : Nat → Path → List Path
  | 0, p => [p]
  | n + 1, p =>
    p :: (match g p with
          | none => []
          | some q => iterUp g n q)

/-! ### Coherent filter states

The bottom-up walk agrees with the top-down order under an active
filter exactly on *coherent* match states: whenever a node is filtered
out (`!match && !subMatchCount`), so is its entire subtree. Every state
produced by `_applyFilterImpl` is coherent (its `subMatchCount` is the
number of matching strict descendants). -/

/-- Filtered out with an active filter. -/
def fOut (d : ND) : Bool := !mTruthy d.matched && !sTruthy d.subMatchCount

mutual

/-- Every node of the subtree is filtered out. -/
def allOutT : NTree → Bool
  | .node d cs => fOut d && allOutF cs

/-- Every node of the forest is filtered out. -/
def allOutF : List NTree → Bool
  | [] => true
  | t :: ts => allOutT t && allOutF ts

end

mutual

/-- Downward closure: a filtered-out node has a fully filtered-out
subtree. -/
def dcT : NTree → Bool
  | .node d cs => (!fOut d || allOutF cs) && dcF cs

/-- `dcT` on every tree of the forest. -/
def dcF : List NTree → Bool
  | [] => true
  | t :: ts => dcT t && dcF ts

end

/-! ### The predecessor step in a child context -/

theorem subtreeAtT_ne_nil (t : NTree) (x : Nat) (rest : Path) :
    subtreeAtT t (x :: rest) = subtreeAtF t.cs (x :: rest) := rfl

theorem subtreeAtF_cons_of (roots : List NTree) (i : Nat) (t : NTree)
    (hroot : roots[i]? = some t) (r : Path) :
    subtreeAtF roots (i :: r) = subtreeAtT t r := by
  simp [subtreeAtF, hroot]

/-- `upStep` at a path into the `i`-th child is the child-relative
`upStep` with `i` re-prefixed — except that "no predecessor" inside the
child (its first node) resolves to the child's own path `[i]`. -/
theorem upStep_cons (ih : Bool) (roots : List NTree) (i : Nat)
    (t : NTree) (hroot : roots[i]? = some t) (q : Path) (hq : q ≠ []) :
    upStep ih roots (i :: q) =
      (match upStep ih t.cs q with
       | some r => some (i :: r)
       | none => if q.getLast? = some 0 then some [i] else none) := by
  cases q with
  | nil => exact absurd rfl hq
  | cons q0 q1 =>
    unfold upStep
    rw [List.getLast?_cons_cons, List.dropLast_cons₂]
    cases hlast : (q0 :: q1).getLast? with
    | none => simp at hlast
    | some j =>
      cases j with
      | zero =>
        by_cases hdl : (q0 :: q1).dropLast = []
        · simp [hdl]
        · simp [hdl]
      | succ j2 =>
        dsimp only
        have hsub : subtreeAtF roots (i :: ((q0 :: q1).dropLast ++ [j2]))
            = subtreeAtF t.cs ((q0 :: q1).dropLast ++ [j2]) := by
          rw [subtreeAtF_cons_of roots i t hroot]
          cases hdl2 : (q0 :: q1).dropLast ++ [j2] with
          | nil => simp at hdl2
          | cons y ys => rfl
        rw [List.cons_append, hsub]
        cases hfind : subtreeAtF t.cs ((q0 :: q1).dropLast ++ [j2]) with
        | none => simp
        | some u => simp

theorem chain'_imp_mem {α : Type} {R S : α → α → Prop} :
    ∀ (l : List α), (∀ a ∈ l, ∀ b ∈ l, R a b → S a b) →
      List.Chain' R l → List.Chain' S l := by
  intro l
  induction l with
  | nil => intro _ _; exact List.chain'_nil
  | cons x xs ih2 =>
    intro himp hch
    rw [List.chain'_cons'] at hch ⊢
    refine ⟨?_, ih2 (fun a ha b hb => himp a (by simp [ha]) b
      (by simp [hb])) hch.2⟩
    intro y hy
    exact himp x (by simp) y (by simp [List.mem_of_mem_head? hy])
      (hch.1 y hy)

theorem filteredOut_false (d : ND) : filteredOut false d = false := by
  simp [filteredOut]

/-- The boundary step: from the path `[k+1]` of a sibling, one
candidate step lands on the deepest last visible descendant of the
`k`-th sibling. -/
theorem upStep_sibling (ih : Bool) (amb : List NTree) (k : Nat)
    (c : NTree) (hc : amb[k]? = some c) :
    upStep ih amb [k + 1] = some (k :: descendLast ih c) := by
  unfold upStep
  simp only [List.getLast?_singleton, List.dropLast_single,
    List.nil_append, subtreeAtF, hc, Option.some_bind]
  rfl

/-- Chain of single candidate steps along the rows of a forest
(`cf = false`: the candidate step knows nothing about filtering),
together with its first and last rows. `pre ++ ts = amb` positions the
suffix `ts` at absolute child index `pre.length`. -/
theorem chainUpF_of (ih : Bool) (amb : List NTree)
    (htree : ∀ c ∈ amb, ∀ (roots : List NTree) (i : Nat),
      roots[i]? = some c →
      List.Chain' (fun a b => upStep ih roots b = some a)
        ((visRowsT ih false c).map (i :: ·)) ∧
      ((visRowsT ih false c).map (i :: ·)).getLast?
        = some (i :: descendLast ih c) ∧
      ((visRowsT ih false c).map (i :: ·)).head? = some [i]) :
    ∀ (ts pre : List NTree), pre ++ ts = amb → ts ≠ [] →
      List.Chain' (fun a b => upStep ih amb b = some a)
        (visRowsF ih false pre.length ts) ∧
      (visRowsF ih false pre.length ts).head? = some [pre.length] ∧
      (∃ c, ts.getLast? = some c ∧
        (visRowsF ih false pre.length ts).getLast?
          = some ((pre.length + (ts.length - 1)) :: descendLast ih c)) := by
  intro ts
  induction ts with
  | nil => intro pre _ hne; exact absurd rfl hne
  | cons c ts2 ih2 =>
    intro pre hamb hne
    have hc : amb[pre.length]? = some c := by
      rw [← hamb, List.getElem?_append, if_neg (by omega)]
      simp
    have hcmem : c ∈ amb := List.getElem?_mem hc
    have hblock := htree c hcmem amb pre.length hc
    simp only [visRowsF, NTree.data, filteredOut_false, if_false,
      Bool.false_eq_true]
    cases ts2 with
    | nil =>
      simp only [visRowsF, List.append_nil]
      refine ⟨hblock.1, hblock.2.2, c, rfl, ?_⟩
      simpa using hblock.2.1
    | cons c2 ts3 =>
      have hrec := ih2 (pre ++ [c]) (by rw [← hamb]; simp) (by simp)
      simp only [List.length_append, List.length_cons, List.length_nil,
        Nat.zero_add] at hrec
      have hrest_ne : visRowsF ih false (pre.length + 1)
          (c2 :: ts3) ≠ [] := by
        intro hcon
        rw [hcon] at hrec
        cases hrec.2.1
      have hblock_ne : (visRowsT ih false c).map
          (fun q => pre.length :: q) ≠ [] := by
        intro hcon
        rw [hcon] at hblock
        cases hblock.2.1
      refine ⟨?_, ?_, ?_⟩
      · rw [List.chain'_append]
        refine ⟨hblock.1, hrec.1, ?_⟩
        intro x hx y hy
        rw [hblock.2.1] at hx
        rw [hrec.2.1] at hy
        simp only [Option.mem_def, Option.some_inj] at hx hy
        rw [← hx, ← hy]
        exact upStep_sibling ih amb pre.length c hc
      · rw [List.head?_append]
        rw [hblock.2.2]
        rfl
      · obtain ⟨cl, hcl1, hcl2⟩ := hrec.2.2
        refine ⟨cl, by simpa using hcl1, ?_⟩
        rw [List.getLast?_append_of_ne_nil _ hrest_ne, hcl2]
        congr 2
        simp only [List.length_cons]
        omega

end Wunderbaum

namespace Wunderbaum

/-- Chain of single candidate steps along the rows of one tree sitting
at child index `i` of its context `roots`, together with its first row
(the node itself) and last row (its deepest last visible descendant). -/
theorem chainUpT (ih : Bool) :
    ∀ (t : NTree) (roots : List NTree) (i : Nat),
      roots[i]? = some t →
      List.Chain' (fun a b => upStep ih roots b = some a)
        ((visRowsT ih false t).map (i :: ·)) ∧
      ((visRowsT ih false t).map (i :: ·)).getLast?
        = some (i :: descendLast ih t) ∧
      ((visRowsT ih false t).map (i :: ·)).head? = some [i] := by
  apply NTree.myInduction
  intro d cs ihm roots i hroot
  by_cases hdive : diveInto ih (.node d cs) = true
  · have hcs_ne : cs ≠ [] := by
      intro hcon
      rw [hcon] at hdive
      simp [diveInto, NTree.cs] at hdive
    have hF := chainUpF_of ih cs
      (fun c hc => ihm c hc) cs [] (by simp) hcs_ne
    simp only [List.length_nil] at hF
    obtain ⟨hch, hhd, clast, hcl1, hcl2⟩ := hF
    have hdesc : descendLast ih (.node d cs)
        = (cs.length - 1) :: descendLast ih clast := by
      conv_lhs => unfold descendLast
      rw [if_pos hdive]
      split
      · rename_i h2
        rw [hcl1] at h2
        cases h2
      · rename_i c2 h2
        rw [hcl1] at h2
        cases h2
        rfl
    simp only [visRowsT, if_pos hdive, List.map_cons]
    have hM_ne : (visRowsF ih false 0 cs).map (i :: ·) ≠ [] := by
      simp only [ne_eq, List.map_eq_nil_iff]
      intro hcon
      rw [hcon] at hhd
      cases hhd
    refine ⟨?_, ?_, rfl⟩
    · rw [List.chain'_cons']
      constructor
      · intro y hy
        rw [List.head?_map, hhd] at hy
        have hy2 : i :: [0] = y := by simpa using hy
        rw [← hy2]
        rw [upStep_cons ih roots i (.node d cs) hroot [0] (by simp)]
        rfl
      · rw [List.chain'_map]
        refine chain'_imp_mem _ ?_ hch
        intro a ha b hb hstep
        have hb_ne : b ≠ [] := visRowsF_ne_nil ih false cs 0 b hb
        rw [upStep_cons ih roots i (.node d cs) hroot b hb_ne]
        simp only [NTree.cs] at hstep ⊢
        rw [hstep]
    · cases hMc : (visRowsF ih false 0 cs).map (i :: ·) with
      | nil => exact absurd hMc hM_ne
      | cons m0 ms =>
        rw [List.getLast?_cons_cons, ← hMc, List.getLast?_map, hcl2]
        simp only [Nat.zero_add]
        rw [hdesc]
        rfl
  · have hdesc : descendLast ih (.node d cs) = [] := by
      unfold descendLast
      rw [if_neg hdive]
    simp only [visRowsT, if_neg hdive, List.map_cons, List.map_nil]
    refine ⟨List.chain'_singleton _, ?_, rfl⟩
    rw [hdesc]
    rfl

/-- The full top-down order of a non-empty forest is one chain of
candidate steps; its first row is `[0]` and its last row is the deepest
last visible descendant of the last root. -/
theorem chainUpM (ih : Bool) (roots : List NTree) (hne : roots ≠ []) :
    List.Chain' (fun a b => upStep ih roots b = some a)
      (visRowsF ih false 0 roots) ∧
    (visRowsF ih false 0 roots).head? = some [0] ∧
    (∃ c, roots.getLast? = some c ∧
      (visRowsF ih false 0 roots).getLast?
        = some ((roots.length - 1) :: descendLast ih c)) := by
  have h := chainUpF_of ih roots (fun c _ => chainUpT ih c) roots []
    (by simp) hne
  simpa using h

/-- From the very first row `[0]` the candidate step reports no
predecessor (the parent is the invisible root). -/
theorem upStep_first (ih : Bool) (roots : List NTree) :
    upStep ih roots [0] = none := by
  simp [upStep]

/-- A row below the node itself is only emitted after a successful
dive. -/
theorem visRowsT_dive (ih cf : Bool) (t : NTree) (q : Path)
    (hq : q ∈ visRowsT ih cf t) (hne : q ≠ []) :
    diveInto ih t = true := by
  cases t with
  | node d cs =>
    simp only [visRowsT, List.mem_cons] at hq
    cases hq with
    | inl h => exact absurd h hne
    | inr h =>
      by_cases hd : diveInto ih (.node d cs) = true
      · exact hd
      · rw [if_neg hd] at h
        cases h

/-- `ancExpandedT` at a node is `ancExpandedF` over its children. -/
theorem ancExpandedT_node (d : ND) (cs : List NTree) :
    ∀ p, ancExpandedT (.node d cs) p = ancExpandedF cs p
  | [] => rfl
  | [_] => rfl
  | _ :: _ :: _ => rfl

/-- Every row of the unfiltered `includeHidden = false` forest
traversal addresses an existing node all of whose proper ancestors are
expanded. -/
theorem memVisF_of :
    ∀ (l : List NTree),
      (∀ c ∈ l, ∀ p ∈ visRowsT false false c,
        (subtreeAtT c p).isSome = true ∧ ancExpandedT c p = true) →
      ∀ p ∈ visRowsF false false 0 l,
        (subtreeAtF l p).isSome = true ∧ ancExpandedF l p = true := by
  intro l
  induction l with
  | nil => intro _ p hp; cases hp
  | cons t ts ih2 =>
    intro htree p hp
    simp only [visRowsF, filteredOut_false, Bool.false_eq_true,
      if_false, List.mem_append] at hp
    cases hp with
    | inl h =>
      obtain ⟨q, hq, rfl⟩ := List.mem_map.mp h
      have hT := htree t (by simp) q hq
      refine ⟨?_, ?_⟩
      · have hs : subtreeAtF (t :: ts) (0 :: q) = subtreeAtT t q := by
          simp [subtreeAtF]
        rw [hs]
        exact hT.1
      · cases q with
        | nil => rfl
        | cons q0 q1 =>
          have hdive := visRowsT_dive false false t (q0 :: q1) hq
            (by simp)
          have hexp : t.data.expanded = true := by
            cases t with
            | node d2 cs2 =>
              simp only [diveInto, Bool.false_or, Bool.and_eq_true] at hdive
              exact hdive.2
          show (match (t :: ts)[(0 : Nat)]? with
                | none => false
                | some c => c.data.expanded && ancExpandedT c (q0 :: q1))
              = true
          simp only [List.getElem?_cons_zero]
          rw [hexp, hT.2]
          rfl
    | inr h =>
      rw [visRowsF_shift] at h
      obtain ⟨p1, hp1, rfl⟩ := List.mem_map.mp h
      have hpne := visRowsF_ne_nil false false ts 0 p1 hp1
      cases p1 with
      | nil => exact absurd rfl hpne
      | cons k q =>
        have hrec := ih2 (fun c hc => htree c (by simp [hc])) (k :: q) hp1
        refine ⟨?_, ?_⟩
        · have hs : subtreeAtF (t :: ts) (shiftP (k :: q))
              = subtreeAtF ts (k :: q) := by
            simp [shiftP, subtreeAtF]
          rw [hs]
          exact hrec.1
        · cases q with
          | nil => rfl
          | cons q0 q1 =>
            show (match (t :: ts)[k + 1]? with
                  | none => false
                  | some c => c.data.expanded && ancExpandedT c (q0 :: q1))
                = true
            rw [List.getElem?_cons_succ]
            exact hrec.2

/-- Tree version of `memVisF_of`. -/
theorem memVisT :
    ∀ (t : NTree), ∀ p ∈ visRowsT false false t,
      (subtreeAtT t p).isSome = true ∧ ancExpandedT t p = true := by
  apply NTree.myInduction
  intro d cs ihm p hp
  simp only [visRowsT, List.mem_cons] at hp
  cases hp with
  | inl h =>
    subst h
    exact ⟨rfl, rfl⟩
  | inr h =>
    by_cases hd : diveInto false (.node d cs) = true
    · rw [if_pos hd] at h
      have hrec := memVisF_of cs (fun c hc => ihm c hc) p h
      have hpne := visRowsF_ne_nil false false cs 0 p h
      cases p with
      | nil => exact absurd rfl hpne
      | cons x rest =>
        refine ⟨?_, ?_⟩
        · rw [subtreeAtT_ne_nil]
          exact hrec.1
        · rw [ancExpandedT_node]
          exact hrec.2
    · rw [if_neg hd] at h
      cases h

/-- Every row of the unfiltered `includeHidden = false` traversal of
the root forest addresses an existing node whose proper ancestors are
all expanded. -/
theorem memVisF (l : List NTree) :
    ∀ p ∈ visRowsF false false 0 l,
      (subtreeAtF l p).isSome = true ∧ ancExpandedF l p = true :=
  memVisF_of l (fun c _ => memVisT c)

/-- The filter check at a path into a tree (`true` also when there is
no node there). -/
def fOutAtT (t : NTree) (q : Path) : Bool :=
  match dataAtT t q with
  | none => true
  | some d => fOut d

/-- The filter check at a path into a forest. -/
def fOutAtF (l : List NTree) (p : Path) : Bool :=
  match dataAtF l p with
  | none => true
  | some d => fOut d

theorem filteredOut_true (d : ND) : filteredOut true d = fOut d := by
  simp [filteredOut, fOut]

theorem allOutF_mem :
    ∀ (l : List NTree), allOutF l = true → ∀ c ∈ l, allOutT c = true := by
  intro l
  induction l with
  | nil => intro _ c hc; cases hc
  | cons t ts ih2 =>
    intro h c hc
    simp only [allOutF, Bool.and_eq_true] at h
    cases hc with
    | head => exact h.1
    | tail _ hmem => exact ih2 h.2 c hmem

theorem allOut_fOutAtT :
    ∀ (q : Path) (t : NTree), allOutT t = true → fOutAtT t q = true := by
  intro q
  induction q with
  | nil =>
    intro t h
    cases t with
    | node d cs =>
      simp only [allOutT, Bool.and_eq_true] at h
      simp only [fOutAtT, dataAtT, subtreeAtT, Option.map_some]
      exact h.1
  | cons j rest ih2 =>
    intro t h
    cases t with
    | node d cs =>
      simp only [allOutT, Bool.and_eq_true] at h
      simp only [fOutAtT, dataAtT, subtreeAtT, NTree.cs]
      cases hj : cs[j]? with
      | none => rfl
      | some c =>
        have hall := allOutF_mem cs h.2 c (List.getElem?_mem hj)
        have := ih2 c hall
        simpa [fOutAtT, dataAtT] using this

theorem dcF_mem :
    ∀ (l : List NTree), dcF l = true → ∀ c ∈ l, dcT c = true := by
  intro l
  induction l with
  | nil => intro _ c hc; cases hc
  | cons t ts ih2 =>
    intro h c hc
    simp only [dcF, Bool.and_eq_true] at h
    cases hc with
    | head => exact h.1
    | tail _ hmem => exact ih2 h.2 c hmem

theorem dcT_parts {d : ND} {cs : List NTree}
    (h : dcT (.node d cs) = true) :
    (fOut d = true → allOutF cs = true) ∧ dcF cs = true := by
  simp only [dcT, Bool.and_eq_true, Bool.or_eq_true,
    Bool.not_eq_eq_eq_not, Bool.not_true] at h
  refine ⟨?_, h.2⟩
  intro hf
  cases h.1 with
  | inl h1 => rw [hf] at h1; cases h1
  | inr h1 => exact h1

theorem fOutAtF_cons_zero (t : NTree) (ts : List NTree) (q : Path) :
    fOutAtF (t :: ts) (0 :: q) = fOutAtT t q := by
  simp [fOutAtF, fOutAtT, dataAtF, dataAtT, subtreeAtF]

theorem fOutAtF_cons_succ (t : NTree) (ts : List NTree) (k : Nat)
    (q : Path) :
    fOutAtF (t :: ts) ((k + 1) :: q) = fOutAtF ts (k :: q) := by
  simp [fOutAtF, dataAtF, subtreeAtF]

theorem fOutAtT_node_ne_nil (d : ND) (cs : List NTree) (x : Nat)
    (rest : Path) :
    fOutAtT (.node d cs) (x :: rest) = fOutAtF cs (x :: rest) := by
  simp only [fOutAtT, fOutAtF, dataAtT, dataAtF, subtreeAtT_ne_nil,
    NTree.cs]

/-- On a downward-closed filter state, the filtered traversal of a
forest is the elementwise filtering of the unfiltered one. -/
theorem visRowsF_filter_of :
    ∀ (l : List NTree),
      (∀ c ∈ l, dcT c = true → fOut c.data = false →
        visRowsT false true c
          = (visRowsT false false c).filter (fun q => !fOutAtT c q)) →
      dcF l = true →
      visRowsF false true 0 l
        = (visRowsF false false 0 l).filter (fun p => !fOutAtF l p) := by
  intro l
  induction l with
  | nil => intro _ _; rfl
  | cons t ts ih2 =>
    intro htree hdc
    have hdcp : dcT t = true ∧ dcF ts = true := by
      simp only [dcF, Bool.and_eq_true] at hdc
      exact hdc
    simp only [visRowsF, filteredOut_true, filteredOut_false,
      Bool.false_eq_true, if_false, List.filter_append]
    congr 1
    · rw [List.map_filter]
      have hcomp : ((fun p => !fOutAtF (t :: ts) p) ∘
          (fun q => (0 : Nat) :: q)) = (fun q => !fOutAtT t q) := by
        funext q
        simp only [Function.comp_apply, fOutAtF_cons_zero]
      rw [hcomp]
      by_cases hft : fOut t.data = true
      · rw [if_pos hft]
        have hao : allOutT t = true := by
          cases t with
          | node d2 cs2 =>
            have hp := dcT_parts hdcp.1
            simp only [NTree.data] at hft
            simp only [allOutT, Bool.and_eq_true]
            exact ⟨hft, hp.1 hft⟩
        have : ∀ q ∈ visRowsT false false t,
            ¬((!fOutAtT t q) = true) := by
          intro q _
          rw [allOut_fOutAtT q t hao]
          simp
        rw [List.filter_eq_nil_iff.mpr this]
        simp
      · rw [if_neg hft]
        rw [htree t (by simp) hdcp.1 (by simpa using hft)]
    · rw [visRowsF_shift, visRowsF_shift, List.map_filter]
      rw [ih2 (fun c hc => htree c (by simp [hc])) hdcp.2]
      congr 1
      apply List.filter_congr'
      intro p hp
      have hpne := visRowsF_ne_nil false false ts 0 p hp
      cases p with
      | nil => exact absurd rfl hpne
      | cons k q =>
        simp only [Function.comp_apply, shiftP, fOutAtF_cons_succ]

/-- Tree version of `visRowsF_filter_of`. -/
theorem visRowsT_filter :
    ∀ (t : NTree), dcT t = true → fOut t.data = false →
      visRowsT false true t
        = (visRowsT false false t).filter (fun q => !fOutAtT t q) := by
  apply NTree.myInduction
  intro d cs ihm hdc hft
  have h0 : (!fOutAtT (.node d cs) []) = true := by
    simp only [fOutAtT, dataAtT, subtreeAtT, Option.map_some]
    simpa using hft
  by_cases hd : diveInto false (.node d cs) = true
  · simp only [visRowsT, if_pos hd, List.filter_cons, h0, if_true]
    congr 1
    rw [visRowsF_filter_of cs (fun c hc => ihm c hc) (dcT_parts hdc).2]
    apply List.filter_congr'
    intro q hq
    have hqne := visRowsF_ne_nil false false cs 0 q hq
    cases q with
    | nil => exact absurd rfl hqne
    | cons x rest => rw [fOutAtT_node_ne_nil]
  · simp only [visRowsT, if_neg hd, List.filter_cons, h0, if_true]
    rfl

/-- On a downward-closed filter state, the filtered top-down traversal
is the elementwise filtering of the unfiltered one. -/
theorem visRowsF_filter (roots : List NTree) (hdc : dcF roots = true) :
    visRowsF false true 0 roots
      = (visRowsF false false 0 roots).filter (fun p => !fOutAtF roots p) :=
  visRowsF_filter_of roots (fun c _ => visRowsT_filter c) hdc

/-- Split a chain around a middle element. -/
theorem chain_mid {α : Type} {R : α → α → Prop} (a m : α)
    (seg M2 : List α)
    (h : List.Chain' R (a :: (seg ++ m :: M2))) :
    List.Chain' R (a :: (seg ++ [m])) ∧ List.Chain' R (m :: M2) := by
  rw [List.append_cons seg m M2, ← List.cons_append,
    List.chain'_append] at h
  refine ⟨h.1, ?_⟩
  rw [List.chain'_cons']
  refine ⟨?_, h.2.1⟩
  intro y hy
  apply h.2.2 m ?_ y hy
  rw [show a :: (seg ++ [m]) = (a :: seg) ++ [m] from rfl,
    List.getLast?_concat]
  rfl

/-- Split a chain around its head block. -/
theorem chain_mid2 {α : Type} {R : α → α → Prop} (m : α)
    (seg M2 : List α)
    (h : List.Chain' R (seg ++ m :: M2)) :
    List.Chain' R (seg ++ [m]) ∧ List.Chain' R (m :: M2) := by
  rw [List.append_cons seg m M2, List.chain'_append] at h
  refine ⟨h.1, ?_⟩
  rw [List.chain'_cons']
  refine ⟨?_, h.2.1⟩
  intro y hy
  apply h.2.2 m ?_ y hy
  rw [List.getLast?_concat]
  rfl

/-- A single `_visitRowsUp` call skips a whole block of invisible
candidates and lands on the nearest visible row above. -/
theorem stepUp_skip (ih ef : Bool) (roots : List NTree) :
    ∀ (seg : List Path) (a c : Path) (fuel : Nat),
      seg.length + 1 ≤ fuel →
      List.Chain' (fun x y => upStep ih roots y = some x)
        (a :: (seg ++ [c])) →
      (∀ x ∈ seg, (ih || isVisible ef roots x) = false) →
      (ih || isVisible ef roots a) = true →
      stepUp ih ef roots fuel c = some a := by
  intro seg
  induction seg using List.reverseRecOn with
  | nil =>
    intro a c fuel hfuel hch _ hPa
    cases fuel with
    | zero => omega
    | succ n =>
      rw [List.chain'_cons'] at hch
      have hstep : upStep ih roots c = some a := hch.1 c rfl
      show (match upStep ih roots c with
            | none => none
            | some q => if ih || isVisible ef roots q then some q
                        else stepUp ih ef roots n q) = some a
      rw [hstep]
      simp only [hPa, if_true]
  | append_singleton s2 s ihseg =>
    intro a c fuel hfuel hch hseg hPa
    cases fuel with
    | zero => simp at hfuel
    | succ n =>
      obtain ⟨hch1, hch2⟩ := chain_mid a s s2 [c] (by
        simpa [List.append_assoc] using hch)
      have hstep : upStep ih roots c = some s := by
        rw [List.chain'_cons'] at hch2
        exact hch2.1 c rfl
      have hPs : (ih || isVisible ef roots s) = false :=
        hseg s (by simp)
      show (match upStep ih roots c with
            | none => none
            | some q => if ih || isVisible ef roots q then some q
                        else stepUp ih ef roots n q) = some a
      rw [hstep]
      simp only [hPs, Bool.false_eq_true, if_false]
      apply ihseg a s n (by simp at hfuel ⊢; omega) hch1
        (fun x hx => hseg x (by simp [hx])) hPa

/-- A single `_visitRowsUp` call that skips its way back to the very
first row reports no predecessor at all. -/
theorem stepUp_none_of (ih ef : Bool) (roots : List NTree) :
    ∀ (seg : List Path) (c : Path) (fuel : Nat),
      seg.length + 1 ≤ fuel →
      List.Chain' (fun x y => upStep ih roots y = some x) (seg ++ [c]) →
      (∀ x ∈ seg, (ih || isVisible ef roots x) = false) →
      (∀ z0, (seg ++ [c]).head? = some z0 → upStep ih roots z0 = none) →
      stepUp ih ef roots fuel c = none := by
  intro seg
  induction seg using List.reverseRecOn with
  | nil =>
    intro c fuel hfuel _ _ hh0
    cases fuel with
    | zero => rfl
    | succ n =>
      have hstep : upStep ih roots c = none := hh0 c rfl
      show (match upStep ih roots c with
            | none => none
            | some q => if ih || isVisible ef roots q then some q
                        else stepUp ih ef roots n q) = none
      rw [hstep]
  | append_singleton s2 s ihseg =>
    intro c fuel hfuel hch hseg hh0
    cases fuel with
    | zero => simp at hfuel
    | succ n =>
      obtain ⟨hch1, hch2⟩ := chain_mid2 s s2 [c] (by
        simpa [List.append_assoc] using hch)
      have hstep : upStep ih roots c = some s := by
        rw [List.chain'_cons'] at hch2
        exact hch2.1 c rfl
      have hPs : (ih || isVisible ef roots s) = false :=
        hseg s (by simp)
      show (match upStep ih roots c with
            | none => none
            | some q => if ih || isVisible ef roots q then some q
                        else stepUp ih ef roots n q) = none
      rw [hstep]
      simp only [hPs, Bool.false_eq_true, if_false]
      apply ihseg s n (by simp at hfuel ⊢; omega) hch1
        (fun x hx => hseg x (by simp [hx]))
      intro z0 hz0
      apply hh0 z0
      rw [List.head?_append, hz0]
      rfl

/-- Consecutive rows of the filtered order are joined by single
`_visitRowsUp` calls (chain part). -/
theorem stepUp_chain_of (ih ef : Bool) (roots : List NTree) (F : Nat) :
    ∀ (M seg : List Path) (a : Path),
      seg.length + M.length < F →
      (ih || isVisible ef roots a) = true →
      (∀ x ∈ seg, (ih || isVisible ef roots x) = false) →
      List.Chain' (fun x y => upStep ih roots y = some x)
        (a :: (seg ++ M)) →
      List.Chain' (fun x y => stepUp ih ef roots F y = some x)
        (a :: M.filter (fun q => ih || isVisible ef roots q)) := by
  intro M
  induction M with
  | nil =>
    intro seg a _ _ _ _
    exact List.chain'_singleton a
  | cons m M2 ih2 =>
    intro seg a hF hPa hseg hch
    simp only [List.length_cons] at hF
    obtain ⟨hch1, hch2⟩ := chain_mid a m seg M2 hch
    by_cases hPm : (ih || isVisible ef roots m) = true
    · simp only [List.filter_cons, hPm, if_true]
      rw [List.chain'_cons']
      constructor
      · intro y hy
        simp only [List.head?_cons, Option.mem_def, Option.some_inj] at hy
        subst hy
        exact stepUp_skip ih ef roots seg a m F (by omega) hch1 hseg hPa
      · exact ih2 [] m (by simp only [List.length_nil]; omega) hPm
          (by simp) (by simpa using hch2)
    · simp only [List.filter_cons, hPm, if_false]
      apply ih2 (seg ++ [m]) a (by simp only [List.length_append,
        List.length_cons, List.length_nil] at hF ⊢; omega) hPa
      · intro x hx
        rw [List.mem_append] at hx
        cases hx with
        | inl h => exact hseg x h
        | inr h =>
          rw [List.mem_singleton] at h
          subst h
          simpa using hPm
      · rw [← List.append_cons]
        exact hch

/-- Consecutive rows of the filtered order are joined by single
`_visitRowsUp` calls, and from its first row the call reports no
predecessor. -/
theorem stepUp_head_of (ih ef : Bool) (roots : List NTree) (F : Nat) :
    ∀ (M seg : List Path),
      seg.length + M.length < F →
      (∀ x ∈ seg, (ih || isVisible ef roots x) = false) →
      List.Chain' (fun x y => upStep ih roots y = some x) (seg ++ M) →
      (∀ z0, (seg ++ M).head? = some z0 → upStep ih roots z0 = none) →
      List.Chain' (fun x y => stepUp ih ef roots F y = some x)
        (M.filter (fun q => ih || isVisible ef roots q)) ∧
      (∀ l0, (M.filter (fun q => ih || isVisible ef roots q)).head?
          = some l0 → stepUp ih ef roots F l0 = none) := by
  intro M
  induction M with
  | nil =>
    intro seg _ _ _ _
    exact ⟨List.chain'_nil, fun l0 h => by cases h⟩
  | cons m M2 ih2 =>
    intro seg hF hseg hch hh0
    simp only [List.length_cons] at hF
    obtain ⟨hch1, hch2⟩ := chain_mid2 m seg M2 hch
    have hhead : ∀ z0, (seg ++ [m]).head? = some z0 →
        upStep ih roots z0 = none := by
      intro z0 hz0
      apply hh0 z0
      rw [List.head?_append] at hz0 ⊢
      simpa using hz0
    by_cases hPm : (ih || isVisible ef roots m) = true
    · simp only [List.filter_cons, hPm, if_true]
      constructor
      · exact stepUp_chain_of ih ef roots F M2 [] m
          (by simp only [List.length_nil]; omega) hPm (by simp)
          (by simpa using hch2)
      · intro l0 hl0
        simp only [List.head?_cons, Option.some_inj] at hl0
        subst hl0
        exact stepUp_none_of ih ef roots seg m F (by omega) hch1
          hseg hhead
    · simp only [List.filter_cons, hPm, if_false]
      apply ih2 (seg ++ [m]) (by simp only [List.length_append,
        List.length_cons, List.length_nil] at hF ⊢; omega)
      · intro x hx
        rw [List.mem_append] at hx
        cases hx with
        | inl h => exact hseg x h
        | inr h =>
          rw [List.mem_singleton] at h
          subst h
          simpa using hPm
      · rw [← List.append_cons]
        exact hch
      · intro z0 hz0
        apply hh0 z0
        rw [← List.append_cons] at hz0
        exact hz0

/-- Iterating a single-step walk whose steps chain a list backwards
from its last element reproduces the reversed list. -/
theorem iterUp_reverse (g : Path → Option Path) :
    ∀ (Z : List Path),
      (∀ z0, Z.head? = some z0 → g z0 = none) →
      List.Chain' (fun a b => g b = some a) Z →
      ∀ zl, Z.getLast? = some zl →
      iterUp g (Z.length - 1) zl = Z.reverse := by
  intro Z
  induction Z using List.reverseRecOn with
  | nil => intro _ _ zl hzl; cases hzl
  | append_singleton Y b ihY =>
    intro hh hch zl hzl
    rw [List.getLast?_concat] at hzl
    cases hzl
    cases Y with
    | nil => rfl
    | cons y0 Y1 =>
      have hlen : ((y0 :: Y1) ++ [b]).length - 1 = Y1.length + 1 := by
        simp
      rw [hlen]
      rw [List.chain'_append] at hch
      obtain ⟨hch1, _, hbd⟩ := hch
      cases hyl : (y0 :: Y1).getLast? with
      | none => simp at hyl
      | some yl =>
        have hgb : g b = some yl := hbd yl (by rw [hyl]; rfl) b rfl
        show b :: (match g b with
                   | none => []
                   | some q => iterUp g Y1.length q)
            = ((y0 :: Y1) ++ [b]).reverse
        rw [hgb]
        have hrec := ihY (fun z0 hz0 => hh z0 (by
            simp only [List.cons_append, List.head?_cons] at hz0 ⊢
            exact hz0)) hch1 yl hyl
        simp only [List.length_cons, Nat.add_sub_cancel] at hrec
        rw [List.reverse_concat]
        show b :: iterUp g Y1.length yl = b :: (y0 :: Y1).reverse
        rw [hrec]

theorem filteredOut_eq_fOut (ef : Bool) (d : ND) :
    filteredOut ef d = (ef && fOut d) := by
  simp [filteredOut, fOut, Bool.and_assoc]

/-- On rows of the unfiltered `includeHidden = false` traversal the
visibility check reduces to the filter check. -/
theorem isVisible_mem (ef : Bool) (roots : List NTree) (p : Path)
    (hp : p ∈ visRowsF false false 0 roots) :
    isVisible ef roots p = !(ef && fOutAtF roots p) := by
  have hm := memVisF roots p hp
  obtain ⟨t, ht⟩ : ∃ t, subtreeAtF roots p = some t := by
    cases hs : subtreeAtF roots p with
    | none =>
      rw [hs] at hm
      simp at hm
    | some t => exact ⟨t, rfl⟩
  have hdat : dataAtF roots p = some t.data := by
    unfold dataAtF
    rw [ht]
    rfl
  unfold isVisible
  rw [hdat]
  show (ancExpandedF roots p && !filteredOut ef t.data)
      = !(ef && fOutAtF roots p)
  rw [hm.2, filteredOut_eq_fOut]
  unfold fOutAtF
  rw [hdat]
  rfl

/-- **C4.** Over the same visibility rules — the `includeHidden` flag,
the expansion state, and (on downward-closed filter states, as
`_applyFilterImpl` produces) an active filter when the tree has
`enableFilter` — iterating `_visitRowsUp` step by step from the last
node of the top-down `visitRows` order produces exactly the reversed
top-down sequence, for every forest shape (the empty forest having no
last node). -/
theorem C4_bottom_up_is_reverse (ih ef : Bool) (roots : List NTree)
    (hdc : (!ih && ef) = true → dcF roots = true) :
    ∀ p0, (visRowsF ih (!ih && ef) 0 roots).getLast? = some p0 →
      iterUp (stepUp ih ef roots ((visRowsF ih false 0 roots).length + 1))
          ((visRowsF ih (!ih && ef) 0 roots).length - 1) p0
        = (visRowsF ih (!ih && ef) 0 roots).reverse := by
  intro p0 hp0
  have hroots : roots ≠ [] := by
    intro hcon
    subst hcon
    simp only [visRowsF] at hp0
    cases hp0
  obtain ⟨hchM, hhdM, -⟩ := chainUpM ih roots hroots
  have hh0 : ∀ z0, (visRowsF ih false 0 roots).head? = some z0 →
      upStep ih roots z0 = none := by
    intro z0 hz
    rw [hhdM] at hz
    cases hz
    exact upStep_first ih roots
  have hmain := stepUp_head_of ih ef roots
    ((visRowsF ih false 0 roots).length + 1) (visRowsF ih false 0 roots)
    [] (by simp) (by simp) (by simpa using hchM) (by simpa using hh0)
  have hL : visRowsF ih (!ih && ef) 0 roots
      = (visRowsF ih false 0 roots).filter
          (fun q => ih || isVisible ef roots q) := by
    cases ih with
    | true =>
      simp only [Bool.not_true, Bool.false_and, Bool.true_or]
      rw [List.filter_true]
    | false =>
      simp only [Bool.not_false, Bool.true_and, Bool.false_or]
      cases ef with
      | false =>
        symm
        apply List.filter_eq_self.mpr
        intro p hp
        rw [isVisible_mem false roots p hp]
        rfl
      | true =>
        rw [visRowsF_filter roots (hdc rfl)]
        apply List.filter_congr'
        intro p hp
        rw [isVisible_mem true roots p hp]
        simp
  rw [hL] at hp0 ⊢
  exact iterUp_reverse _ _ hmain.2 hmain.1 p0 hp0

/-- A coherently filtered forest: `A` (matched, expanded) with children
`B` (filtered out) and `C` (expanded, unmatched but with one matching
strict descendant `D`), plus a filtered-out second root `E`. -/
def c4A : NTree := .node
  { title := "A", expanded := true, matched := some true,
    subMatchCount := some 1 }
  [.node { title := "B", matched := some false,
           subMatchCount := some 0 } [],
   .node { title := "C", expanded := true, matched := some false,
           subMatchCount := some 1 }
     [.node { title := "D", matched := some true,
              subMatchCount := some 0 } []]]

/-- Filtered-out second root. -/
def c4E : NTree := .node
  { title := "E", matched := some false, subMatchCount := some 0 } []

/-- The two-root demo forest for the traversal-reversal witness. -/
def c4Roots : List NTree := [c4A, c4E]

/-- Witness for C4: on the coherently filtered demo forest with
`includeHidden = false` and an active filter, the filtered top-down
order is `[[0], [0,1], [0,1,0]]` (`A`, `C`, `D`); walking up from its
last row `[0,1,0]` reproduces exactly its reverse. -/
theorem C4_witness :
    dcF c4Roots = true ∧
    (visRowsF false (!false && true) 0 c4Roots).getLast?
      = some [0, 1, 0] ∧
    iterUp (stepUp false true c4Roots
        ((visRowsF false false 0 c4Roots).length + 1))
        ((visRowsF false (!false && true) 0 c4Roots).length - 1)
        [0, 1, 0]
      = (visRowsF false (!false && true) 0 c4Roots).reverse :=
  ⟨by decide, by decide,
   C4_bottom_up_is_reverse false true c4Roots (fun _ => by decide)
     [0, 1, 0] (by decide)⟩

/-! ### `_applyFilterImpl` produces downward-closed states -/

mutual

/-- Every node of the subtree has `subMatchCount` equal to its number
of matching strict descendants. -/
def smcT : NTree → Bool
  | .node d cs => (d.subMatchCount == some (countMF cs)) && smcF cs

/-- `smcT` on every tree of the forest. -/
def smcF : List NTree → Bool
  | [] => true
  | t :: ts => smcT t && smcF ts

end

theorem smcF_of_all :
    ∀ (l : List NTree), (∀ c ∈ l, smcT c = true) → smcF l = true := by
  intro l
  induction l with
  | nil => intro _; rfl
  | cons t ts ih2 =>
    intro h
    simp only [smcF, Bool.and_eq_true]
    exact ⟨h t (by simp), ih2 (fun c hc => h c (by simp [hc]))⟩

theorem smcF_mem :
    ∀ (l : List NTree), smcF l = true → ∀ c ∈ l, smcT c = true := by
  intro l
  induction l with
  | nil => intro _ c hc; cases hc
  | cons t ts ih2 =>
    intro h c hc
    simp only [smcF, Bool.and_eq_true] at h
    cases hc with
    | head => exact h.1
    | tail _ hmem => exact ih2 h.2 c hmem

theorem allOutF_of_all :
    ∀ (l : List NTree), (∀ c ∈ l, allOutT c = true) → allOutF l = true := by
  intro l
  induction l with
  | nil => intro _; rfl
  | cons t ts ih2 =>
    intro h
    simp only [allOutF, Bool.and_eq_true]
    exact ⟨h t (by simp), ih2 (fun c hc => h c (by simp [hc]))⟩

theorem dcF_of_all :
    ∀ (l : List NTree), (∀ c ∈ l, dcT c = true) → dcF l = true := by
  intro l
  induction l with
  | nil => intro _; rfl
  | cons t ts ih2 =>
    intro h
    simp only [dcF, Bool.and_eq_true]
    exact ⟨h t (by simp), ih2 (fun c hc => h c (by simp [hc]))⟩

theorem smcT_of_subtrees :
    ∀ t, (∀ p t', subtreeAtT t p = some t' →
        t'.data.subMatchCount = some (countMF t'.cs)) →
      smcT t = true := by
  apply NTree.myInduction
  intro d cs ihm h
  simp only [smcT, Bool.and_eq_true]
  constructor
  · have h0 := h [] (.node d cs) rfl
    simp only [NTree.data, NTree.cs] at h0
    simp [h0]
  · apply smcF_of_all
    intro c hc
    obtain ⟨j, hj⟩ := List.getElem?_of_mem hc
    apply ihm c hc
    intro p t2 hp
    apply h (j :: p) t2
    simp only [subtreeAtT, NTree.cs, hj, Option.some_bind]
    exact hp

theorem smcF_of_subtrees :
    ∀ (l : List NTree), (∀ p t', subtreeAtF l p = some t' →
        t'.data.subMatchCount = some (countMF t'.cs)) →
      smcF l = true := by
  intro l h
  apply smcF_of_all
  intro c hc
  obtain ⟨j, hj⟩ := List.getElem?_of_mem hc
  apply smcT_of_subtrees
  intro p t2 hp
  apply h (j :: p) t2
  simp only [subtreeAtF, hj, Option.some_bind]
  exact hp

theorem countMF_zero_mem :
    ∀ (l : List NTree), countMF l = 0 → ∀ c ∈ l, countMT c = 0 := by
  intro l
  induction l with
  | nil => intro _ c hc; cases hc
  | cons t ts ih2 =>
    intro h c hc
    simp only [countMF] at h
    cases hc with
    | head => omega
    | tail _ hmem => exact ih2 (by omega) c hmem

theorem allOutT_of_smc :
    ∀ t, smcT t = true → countMT t = 0 → allOutT t = true := by
  apply NTree.myInduction
  intro d cs ihm hs hc
  simp only [smcT, Bool.and_eq_true, beq_iff_eq] at hs
  simp only [countMT] at hc
  have hm0 : mTruthy d.matched = false := by
    by_cases h : mTruthy d.matched = true
    · rw [h, if_pos rfl] at hc
      omega
    · simpa using h
  have hcf : countMF cs = 0 := by
    rw [hm0] at hc
    simpa using hc
  simp only [allOutT, Bool.and_eq_true]
  constructor
  · simp [fOut, hm0, hs.1, hcf, sTruthy]
  · apply allOutF_of_all
    intro c hcm
    exact ihm c hcm (smcF_mem cs hs.2 c hcm)
      (countMF_zero_mem cs hcf c hcm)

theorem dcT_of_smc :
    ∀ t, smcT t = true → dcT t = true := by
  apply NTree.myInduction
  intro d cs ihm hs
  simp only [smcT, Bool.and_eq_true, beq_iff_eq] at hs
  simp only [dcT, Bool.and_eq_true]
  constructor
  · by_cases hf : fOut d = true
    · have hcf : countMF cs = 0 := by
        simp only [fOut, Bool.and_eq_true, Bool.not_eq_eq_eq_not,
          Bool.not_true] at hf
        rw [hs.1] at hf
        cases hcf2 : countMF cs with
        | zero => rfl
        | succ n =>
          rw [hcf2] at hf
          simp [sTruthy] at hf
      rw [Bool.or_eq_true]
      right
      apply allOutF_of_all
      intro c hc
      exact allOutT_of_smc c (smcF_mem cs hs.2 c hc)
        (countMF_zero_mem cs hcf c hc)
    · rw [Bool.or_eq_true]
      left
      simpa using hf
  · apply dcF_of_all
    intro c hc
    exact ihm c hc (smcF_mem cs hs.2 c hc)

/-- The evaluation pass of `_applyFilterImpl` always produces a
downward-closed filter state: its `subMatchCount` bookkeeping counts
matching strict descendants, so a filtered-out node heads a fully
filtered-out subtree. This discharges the coherence hypothesis of the
traversal-reversal theorem for every filter state the extension can
produce. -/
theorem applyFilterRun_dcF (P : ND → FR) (hl : Option (ND → String))
    (bm : Bool) (opts : FilterOpts) (s : TState) :
    dcF (applyFilterRun P hl bm opts s).1.topLevel = true := by
  have hsub : ∀ p t', subtreeAtF
      (applyFilterRun P hl bm opts s).1.topLevel p = some t' →
      t'.data.subMatchCount = some (countMF t'.cs) := by
    intro p t' ht'
    rw [applyFilterRun_topLevel] at ht'
    rcases p with _ | ⟨i, rest⟩
    · cases ht'
    · simp only [subtreeAtF, evalF_getElem] at ht'
      cases hc : (resetF s.topLevel)[i]? with
      | none => rw [hc] at ht'; cases ht'
      | some c =>
        rw [hc] at ht'
        exact evalT_subMatch_char P hl bm _ opts.autoExpand c _
          (resetLikeF_mem (resetLikeF_resetF s.topLevel)
            (List.getElem?_mem hc)) rest t' ht'
  have hsmc := smcF_of_subtrees _ hsub
  apply dcF_of_all
  intro c hc
  exact dcT_of_smc c (smcF_mem _ hsmc c hc)

end Wunderbaum
